import Mathlib

/-!
Verification of the oxi-db storage engine (Rust sources: btree.rs, types.rs,
table.rs, database.rs, error.rs) against its natural-language specification.

Modelling conventions for the shallow embedding:
* A Rust `String` is modelled by its UTF-8 byte sequence `List Nat` (every byte
  below 256, tracked where it matters).  Rust's derived `Ord` on `String` and on
  the `Key` newtype is byte-wise lexicographic, which this representation
  exposes directly.
* `std::collections::BTreeMap` (wrapped by `BTree` in btree.rs) is modelled
  observationally as its strictly-ascending association list; `insert` on an
  absent key is a sorted insertion, in-place value overwrite (`get_mut`,
  `&mut` access) is positional replacement, `remove` drops the first matching
  entry.
* Rust `&mut self` methods become state-passing functions returning the
  `Result` together with the post-state; an early `return Err(..)` leaves the
  state unchanged.
* `i64` is `Int` (with the `[-2^63, 2^63)` range made explicit where the
  byte encoding needs it); `f64` is carried as its 64-bit pattern (a `Nat`),
  which is faithful because the engine never computes with floats - it only
  stores them and (de)serializes their 8 raw bytes.
* Filesystem outcomes are outside the embedding: `Database::save`'s combined
  create_dir_all / bincode::serialize / fs::write step is represented by a
  Boolean oracle `saveOk` saying whether that step succeeds; the bytes written
  on success are `encDatabase` of the current state (defined below).
-/

namespace OxiDb

deriving instance DecidableEq for Except

/-- A Rust String, as its UTF-8 byte sequence. -/
abbrev Str := List Nat

/-- Byte-wise lexicographic strict order on strings: the derived `Ord` of the
`Key(String)` newtype in types.rs and of table-name keys in database.rs. -/
def ltStr : Str → Str → Bool
  | [], [] => false
  | [], _ :: _ => true
  | _ :: _, [] => false
  | a :: as, b :: bs => if a < b then true else if b < a then false else ltStr as bs

/-- types.rs `Value`: the six-variant tagged union. `Float` carries the 64-bit
IEEE bit pattern; `Integer` carries the mathematical value of the `i64`. -/
inductive Value
  | Null
  | Integer (i : Int)
  | Float (bits : Nat)
  | Text (s : Str)
  | Boolean (b : Bool)
  | Blob (bytes : List Nat)
deriving DecidableEq

/-- types.rs `ColumnType`. -/
inductive ColumnType
  | Integer
  | Float
  | Text
  | Boolean
  | Blob
deriving DecidableEq

/-- types.rs `Column`: a name and a declared type. -/
structure Column where
  name : Str
  column_type : ColumnType
deriving DecidableEq

/-- types.rs `Row`: the positional value sequence. -/
structure Row where
  values : List Value
deriving DecidableEq

/-- types.rs `Row::new`. -/
def Row.new (values : List Value) : Row := ⟨values⟩

/-- error.rs `DbError`.  The `IoError`, `SerializationError` and `BincodeError`
payloads (`io::Error`, `serde_json::Error`, `bincode::Error`) are opaque
library diagnostics and are dropped; `Other` keeps its message (modelled as a
Lean `String`, since messages are never ordered or serialized). -/
inductive DbError
  | TableExists
  | TableNotFound
  | KeyExists
  | KeyNotFound
  | IoError
  | SerializationError
  | BincodeError
  | TypeConversionError
  | Other (msg : String)
deriving DecidableEq

/-- The message `format!("Expected {} values, got {}", ..)` built by
table.rs for a value-count/column-count mismatch. -/
def arityMsg (expected got : Nat) : String :=
  "Expected " ++ toString expected ++ " values, got " ++ toString got

/-- `BTreeMap::get` / btree.rs `BTree::search`: first (unique, once sorted)
entry with this key. -/
def mapSearch (k : Str) : List (Str × α) → Option α
  | [] => none
  | (k0, v0) :: rest => if k = k0 then some v0 else mapSearch k rest

/-- `BTreeMap::insert` on a sorted association list: overwrite an existing
entry in place, otherwise insert at the ascending position. -/
def mapInsert (k : Str) (v : α) : List (Str × α) → List (Str × α)
  | [] => [(k, v)]
  | (k0, v0) :: rest =>
    if k = k0 then (k, v) :: rest
    else if ltStr k k0 then (k, v) :: (k0, v0) :: rest
    else (k0, v0) :: mapInsert k v rest

/-- In-place overwrite through a mutable reference (`get_mut` then `*r = v`,
and the `&mut Table` obtained from `get_table_mut`): the first entry with this
key has its value replaced, nothing is inserted. -/
def mapReplace (k : Str) (v : α) : List (Str × α) → List (Str × α)
  | [] => []
  | (k0, v0) :: rest =>
    if k = k0 then (k, v) :: rest else (k0, v0) :: mapReplace k v rest

/-- `BTreeMap::remove` / btree.rs `BTree::remove`: drop the first entry with
this key, returning the removed value. -/
def mapRemove (k : Str) : List (Str × α) → Option α × List (Str × α)
  | [] => (none, [])
  | (k0, v0) :: rest =>
    if k = k0 then (some v0, rest)
    else ((mapRemove k rest).1, (k0, v0) :: (mapRemove k rest).2)

/-- table.rs `Table`.  `data: BTree<Key, Row>` is the sorted association
list of its entries. -/
structure Table where
  name : Str
  columns : List Column
  primary_key : Option Str
  data : List (Str × Row)
deriving DecidableEq

/-- table.rs `Table::new`: empty data. -/
def Table.new (name : Str) (columns : List Column) (primary_key : Option Str) : Table :=
  { name := name, columns := columns, primary_key := primary_key, data := [] }

/-- The match inside table.rs `validate_value_type`: a value is valid for a
declared type when the variants correspond, and `Null` is allowed for any
type. -/
def typeMatches : ColumnType → Value → Bool
  | .Integer, .Integer _ => true
  | .Float, .Float _ => true
  | .Text, .Text _ => true
  | .Boolean, .Boolean _ => true
  | .Blob, .Blob _ => true
  | _, .Null => true
  | _, _ => false

/-- table.rs `Table::validate_value_type`.  The source indexes
`self.columns[column_idx]` directly; every call site keeps the index below
`columns.len()` (the arity check ran first), so the `none` branch is
unreachable there and is mapped to `ok` to keep the function total. -/
def Table.validate_value_type (t : Table) (column_idx : Nat) (value : Value) :
    Except DbError Unit :=
  match t.columns[column_idx]? with
  | some column =>
    if typeMatches column.column_type value then .ok () else .error .TypeConversionError
  | none => .ok ()

/-- The `for (i, value) in values.iter().enumerate()` validation loop of
table.rs `insert` and `update`, started at index `i`. -/
def Table.validateFrom (t : Table) : Nat → List Value → Except DbError Unit
  | _, [] => .ok ()
  | i, value :: rest =>
    match t.validate_value_type i value with
    | .ok _ => t.validateFrom (i + 1) rest
    | .error e => .error e

/-- table.rs `Table::insert`: existence check, then arity check, then the
type-validation loop; on success the new row is stored.  The post-state is
returned alongside the `Result`. -/
def Table.insert (t : Table) (key : Str) (values : List Value) :
    Except DbError Unit × Table :=
  if (mapSearch key t.data).isSome then (.error .KeyExists, t)
  else if values.length ≠ t.columns.length then
    (.error (.Other (arityMsg t.columns.length values.length)), t)
  else
    match t.validateFrom 0 values with
    | .error e => (.error e, t)
    | .ok _ => (.ok (), { t with data := mapInsert key (Row.new values) t.data })

/-- table.rs `Table::get`. -/
def Table.get (t : Table) (key : Str) : Except DbError Row :=
  match mapSearch key t.data with
  | some row => .ok row
  | none => .error .KeyNotFound

/-- table.rs `Table::update`: existence check, arity check, type loop, then
in-place replacement through `get_mut` (whose `None` branch is dead because
the existence check already succeeded). -/
def Table.update (t : Table) (key : Str) (values : List Value) :
    Except DbError Unit × Table :=
  if (mapSearch key t.data).isNone then (.error .KeyNotFound, t)
  else if values.length ≠ t.columns.length then
    (.error (.Other (arityMsg t.columns.length values.length)), t)
  else
    match t.validateFrom 0 values with
    | .error e => (.error e, t)
    | .ok _ =>
      match mapSearch key t.data with
      | some _ => (.ok (), { t with data := mapReplace key (Row.new values) t.data })
      | none => (.error .KeyNotFound, t)

/-- table.rs `Table::delete`: `remove` always runs; an absent key reports
`KeyNotFound` (the removal was a no-op then). -/
def Table.delete (t : Table) (key : Str) : Except DbError Unit × Table :=
  match (mapRemove key t.data).1 with
  | some _ => (.ok (), { t with data := (mapRemove key t.data).2 })
  | none => (.error .KeyNotFound, { t with data := (mapRemove key t.data).2 })

/-- table.rs `Table::get_all`, via btree.rs `to_vec`: the entries, cloned in
ascending key order - exactly the association list of the model. -/
def Table.get_all (t : Table) : List (Str × Row) := t.data

/-- table.rs `Table::len`. -/
def Table.len (t : Table) : Nat := t.data.length

/-- table.rs `Table::is_empty`. -/
def Table.isEmptyT (t : Table) : Bool := t.data.isEmpty

/-- `HashMap::insert`: overwrite the value of an existing key, else add the
binding.  Only lookups of the produced map are observed. -/
def hmInsert (k : Str) (v : Value) : List (Str × Value) → List (Str × Value)
  | [] => [(k, v)]
  | (k0, v0) :: rest =>
    if k0 = k then (k, v) :: rest else (k0, v0) :: hmInsert k v rest

/-- The `for (i, column) in self.columns.iter().enumerate()` loop of
table.rs `get_as_map`: a column contributes only while its index is inside
the row, and a repeated column name overwrites the earlier binding. -/
def getAsMapLoop (vals : List Value) : Nat → List Column → List (Str × Value) →
    List (Str × Value)
  | _, [], m => m
  | i, column :: rest, m =>
    match vals[i]? with
    | some v => getAsMapLoop vals (i + 1) rest (hmInsert column.name v m)
    | none => getAsMapLoop vals (i + 1) rest m

/-- table.rs `Table::get_as_map`. -/
def Table.get_as_map (t : Table) (key : Str) : Except DbError (List (Str × Value)) :=
  match t.get key with
  | .error e => .error e
  | .ok row => .ok (getAsMapLoop row.values 0 t.columns [])

/-- table.rs `Table::find`, via btree.rs `traverse`: visit entries in
ascending order, pushing the ones whose row satisfies the predicate. -/
def findAux (predicate : Row → Bool) : List (Str × Row) → List (Str × Row)
  | [] => []
  | (k, v) :: rest =>
    if predicate v then (k, v) :: findAux predicate rest else findAux predicate rest

/-- table.rs `Table::find`. -/
def Table.find (t : Table) (predicate : Row → Bool) : List (Str × Row) :=
  findAux predicate t.data

/-- database.rs `Database`: the backing path and the name-to-table
`BTreeMap`, again as a sorted association list. -/
structure Database where
  path : Str
  tables : List (Str × Table)
deriving DecidableEq

/-- database.rs `Database::new`: empty, no I/O. -/
def Database.new (path : Str) : Database := { path := path, tables := [] }

/-- database.rs `Database::save`: create_dir_all, bincode::serialize,
fs::write.  The filesystem outcome is the oracle `saveOk`; on success the
file now holds `encDatabase` of the state (see the serialization model
below), on failure the error surfaces as an I/O error. -/
def Database.save (_db : Database) (saveOk : Bool) : Except DbError Unit :=
  if saveOk then .ok () else .error .IoError

/-- database.rs `Database::get_table`. -/
def Database.get_table (db : Database) (name : Str) : Except DbError Table :=
  match mapSearch name db.tables with
  | some t => .ok t
  | none => .error .TableNotFound

/-- database.rs `Database::list_tables`. -/
def Database.list_tables (db : Database) : List Str := db.tables.map Prod.fst

/-- database.rs `Database::create_table`: uniqueness check, insert the fresh
table, then save. -/
def Database.create_table (db : Database) (saveOk : Bool) (name : Str)
    (columns : List Column) (primary_key : Option Str) :
    Except DbError Unit × Database :=
  if (mapSearch name db.tables).isSome then (.error .TableExists, db)
  else
    let db2 := { db with tables := mapInsert name (Table.new name columns primary_key) db.tables }
    (db2.save saveOk, db2)

/-- database.rs `Database::drop_table`: existence check, remove, save. -/
def Database.drop_table (db : Database) (saveOk : Bool) (name : Str) :
    Except DbError Unit × Database :=
  if (mapSearch name db.tables).isNone then (.error .TableNotFound, db)
  else
    let db2 := { db with tables := (mapRemove name db.tables).2 }
    (db2.save saveOk, db2)

/-- The state of a database after a table-locating mutating call wrote the
table's post-state back through the `&mut Table` of `get_table_mut`. -/
def Database.withTable (db : Database) (table_name : Str) (t2 : Table) : Database :=
  { db with tables := mapReplace table_name t2 db.tables }

/-- database.rs `Database::insert`: locate the table (`get_table_mut`),
delegate to `Table::insert` (which mutates the table through the `&mut`
reference), then save.  A failing save happens after the in-memory mutation. -/
def Database.insert (db : Database) (saveOk : Bool) (table_name : Str)
    (key : Str) (values : List Value) : Except DbError Unit × Database :=
  match mapSearch table_name db.tables with
  | none => (.error .TableNotFound, db)
  | some t =>
    match (t.insert key values).1 with
    | .error e => (.error e, db.withTable table_name (t.insert key values).2)
    | .ok _ =>
      ((db.withTable table_name (t.insert key values).2).save saveOk,
        db.withTable table_name (t.insert key values).2)

/-- database.rs `Database::update`: same shape as `Database::insert`. -/
def Database.update (db : Database) (saveOk : Bool) (table_name : Str)
    (key : Str) (values : List Value) : Except DbError Unit × Database :=
  match mapSearch table_name db.tables with
  | none => (.error .TableNotFound, db)
  | some t =>
    match (t.update key values).1 with
    | .error e => (.error e, db.withTable table_name (t.update key values).2)
    | .ok _ =>
      ((db.withTable table_name (t.update key values).2).save saveOk,
        db.withTable table_name (t.update key values).2)

/-- database.rs `Database::delete`: same shape as `Database::insert`. -/
def Database.delete (db : Database) (saveOk : Bool) (table_name : Str)
    (key : Str) : Except DbError Unit × Database :=
  match mapSearch table_name db.tables with
  | none => (.error .TableNotFound, db)
  | some t =>
    match (t.delete key).1 with
    | .error e => (.error e, db.withTable table_name (t.delete key).2)
    | .ok _ =>
      ((db.withTable table_name (t.delete key).2).save saveOk,
        db.withTable table_name (t.delete key).2)

/-- database.rs `Database::get`: read-only, no save. -/
def Database.get (db : Database) (table_name : Str) (key : Str) :
    Except DbError Row :=
  match mapSearch table_name db.tables with
  | none => .error .TableNotFound
  | some t => t.get key

/-- A mutating table call, for reasoning about arbitrary operation
sequences.  The read-only operations (`get`, `get_all`, `get_as_map`,
`find`, `len`, `is_empty`) take `&self` in the source and are pure functions
of the state here, so they need no entry. -/
inductive TableOp
  | insertOp (key : Str) (values : List Value)
  | updateOp (key : Str) (values : List Value)
  | deleteOp (key : Str)

/-- Post-state of one mutating call (the `Result` is dropped; on failure the
post-state is the pre-state). -/
def Table.applyOp (t : Table) : TableOp → Table
  | .insertOp k vs => (t.insert k vs).2
  | .updateOp k vs => (t.update k vs).2
  | .deleteOp k => (t.delete k).2

/-- Post-state of a sequence of mutating calls. -/
def Table.applyOps (t : Table) (ops : List TableOp) : Table :=
  ops.foldl Table.applyOp t

/-- Keys of an association list are strictly ascending (byte-wise): the
`BTreeMap` representation invariant. -/
def sortedKeys (l : List (Str × α)) : Prop :=
  List.Pairwise (fun a b => ltStr a b = true) (l.map Prod.fst)

/-!
Serialization model.  `Database::save` runs `bincode::serialize(self)` with
bincode 1.x's legacy options - fixed-width integers, little-endian - over the
serde derives of database.rs / table.rs / btree.rs / types.rs, and
`Database::open` runs `bincode::deserialize` over the same derives.  The
encoding is structural: struct fields in declaration order; enum variants as a
u32 tag then the payload; sequences and maps as a u64 length then the
elements (maps in ascending key order); `String` as a u64 byte length then
the UTF-8 bytes; `Option` as one tag byte; `bool` as one byte; `i64`/`f64` as
8 little-endian bytes; newtype wrappers (`Key`, `Row`'s single field,
`BTree`'s single field) as their content.  `PathBuf` (de)serializes as the
path string.  Deserialization of a map rebuilds the `BTreeMap` by inserting
the decoded entries in stream order.
-/

/-- `k` little-endian base-256 digits of `n` (that is, of `n mod 256^k`). -/
def natLE : Nat → Nat → List Nat
  | 0, _ => []
  | k + 1, n => n % 256 :: natLE k (n / 256)

/-- A fixed-width `u64`, little-endian. -/
def u64le (n : Nat) : List Nat := natLE 8 n

/-- A fixed-width `u32`, little-endian (bincode's enum-variant tag). -/
def u32le (n : Nat) : List Nat := natLE 4 n

/-- An `i64`: the 8 little-endian bytes of its two's-complement pattern. -/
def i64le (i : Int) : List Nat := u64le (i % (2 ^ 64 : Int)).toNat

/-- A `String`: u64 byte length, then the bytes. -/
def encStr (s : Str) : List Nat := u64le s.length ++ s.map (· % 256)

/-- A `Vec<u8>` (the `Blob` payload): u64 length, then the raw bytes. -/
def encBlob (b : List Nat) : List Nat := u64le b.length ++ b.map (· % 256)

/-- A `bool`: one byte, 1 or 0. -/
def encBool (b : Bool) : List Nat := [if b then 1 else 0]

/-- An `Option<String>` (the `primary_key` field): one tag byte then the
payload. -/
def encOptStr : Option Str → List Nat
  | none => [0]
  | some s => 1 :: encStr s

/-- types.rs `ColumnType`, variants tagged 0..4 in declaration order. -/
def encColumnType : ColumnType → List Nat
  | .Integer => u32le 0
  | .Float => u32le 1
  | .Text => u32le 2
  | .Boolean => u32le 3
  | .Blob => u32le 4

/-- types.rs `Column`: `name` then `column_type`. -/
def encColumn (c : Column) : List Nat := encStr c.name ++ encColumnType c.column_type

/-- types.rs `Value`, variants tagged 0..5 in declaration order. -/
def encValue : Value → List Nat
  | .Null => u32le 0
  | .Integer i => u32le 1 ++ i64le i
  | .Float bits => u32le 2 ++ u64le bits
  | .Text s => u32le 3 ++ encStr s
  | .Boolean b => u32le 4 ++ encBool b
  | .Blob bytes => u32le 5 ++ encBlob bytes

/-- Concatenated element encodings of a sequence. -/
def encListAux (f : α → List Nat) : List α → List Nat
  | [] => []
  | x :: xs => f x ++ encListAux f xs

/-- A `Vec`: u64 length then the elements. -/
def encList (f : α → List Nat) (l : List α) : List Nat :=
  u64le l.length ++ encListAux f l

/-- Concatenated key-value encodings of a map's entries. -/
def encPairsAux (f : α → List Nat) : List (Str × α) → List Nat
  | [] => []
  | (k, v) :: rest => encStr k ++ f v ++ encPairsAux f rest

/-- A `BTreeMap` keyed by a string newtype: u64 entry count then the entries
in (already ascending) order. -/
def encMap (f : α → List Nat) (l : List (Str × α)) : List Nat :=
  u64le l.length ++ encPairsAux f l

/-- types.rs `Row` (single-field struct): just its `values` vector. -/
def encRow (r : Row) : List Nat := encList encValue r.values

/-- table.rs `Table`: `name`, `columns`, `primary_key`, `data` in field
order (`data`'s `BTree` wrapper contributes just its inner map). -/
def encTable (t : Table) : List Nat :=
  encStr t.name ++ encList encColumn t.columns ++ encOptStr t.primary_key ++
    encMap encRow t.data

/-- database.rs `Database`: `path` (as a string) then `tables`. -/
def encDatabase (db : Database) : List Nat :=
  encStr db.path ++ encMap encTable db.tables

/-- Read one byte of the stream. -/
def readByte : List Nat → Option (Nat × List Nat)
  | [] => none
  | b :: rest => some (b, rest)

/-- Read `k` bytes of the stream. -/
def readBytes : Nat → List Nat → Option (List Nat × List Nat)
  | 0, l => some ([], l)
  | _ + 1, [] => none
  | k + 1, b :: rest =>
    match readBytes k rest with
    | some (bs, rest2) => some (b :: bs, rest2)
    | none => none

/-- Value of little-endian base-256 digits. -/
def leVal : List Nat → Nat
  | [] => 0
  | b :: bs => b + 256 * leVal bs

/-- Read a fixed-width `u64`. -/
def readU64 (l : List Nat) : Option (Nat × List Nat) :=
  match readBytes 8 l with
  | some (bs, rest) => some (leVal bs, rest)
  | none => none

/-- Read a fixed-width `u32`. -/
def readU32 (l : List Nat) : Option (Nat × List Nat) :=
  match readBytes 4 l with
  | some (bs, rest) => some (leVal bs, rest)
  | none => none

/-- Read an `i64` (two's complement). -/
def decI64 (l : List Nat) : Option (Int × List Nat) :=
  match readU64 l with
  | some (n, rest) =>
    some (if n < 2 ^ 63 then (n : Int) else (n : Int) - 2 ^ 64, rest)
  | none => none

/-- Read a `String` (here: its byte sequence; bincode additionally checks
UTF-8 validity, which holds for any bytes produced by encoding a string). -/
def decStr (l : List Nat) : Option (Str × List Nat) :=
  match readU64 l with
  | some (n, rest) => readBytes n rest
  | none => none

/-- Read a `bool`; bincode rejects any byte other than 0 or 1. -/
def decBool (l : List Nat) : Option (Bool × List Nat) :=
  match readByte l with
  | some (b, rest) =>
    if b = 0 then some (false, rest)
    else if b = 1 then some (true, rest)
    else none
  | none => none

/-- Read an `Option<String>`. -/
def decOptStr (l : List Nat) : Option (Option Str × List Nat) :=
  match readByte l with
  | some (b, rest) =>
    if b = 0 then some (none, rest)
    else if b = 1 then
      match decStr rest with
      | some (s, rest2) => some (some s, rest2)
      | none => none
    else none
  | none => none

/-- Read a `ColumnType` tag. -/
def decColumnType (l : List Nat) : Option (ColumnType × List Nat) :=
  match readU32 l with
  | some (tag, rest) =>
    if tag = 0 then some (.Integer, rest)
    else if tag = 1 then some (.Float, rest)
    else if tag = 2 then some (.Text, rest)
    else if tag = 3 then some (.Boolean, rest)
    else if tag = 4 then some (.Blob, rest)
    else none
  | none => none

/-- Read a `Column`. -/
def decColumn (l : List Nat) : Option (Column × List Nat) :=
  match decStr l with
  | some (name, rest) =>
    match decColumnType rest with
    | some (ct, rest2) => some (⟨name, ct⟩, rest2)
    | none => none
  | none => none

/-- Read a `Value`. -/
def decValue (l : List Nat) : Option (Value × List Nat) :=
  match readU32 l with
  | some (tag, rest) =>
    if tag = 0 then some (.Null, rest)
    else if tag = 1 then
      match decI64 rest with
      | some (i, rest2) => some (.Integer i, rest2)
      | none => none
    else if tag = 2 then
      match readU64 rest with
      | some (bits, rest2) => some (.Float bits, rest2)
      | none => none
    else if tag = 3 then
      match decStr rest with
      | some (s, rest2) => some (.Text s, rest2)
      | none => none
    else if tag = 4 then
      match decBool rest with
      | some (b, rest2) => some (.Boolean b, rest2)
      | none => none
    else if tag = 5 then
      match decStr rest with
      | some (bytes, rest2) => some (.Blob bytes, rest2)
      | none => none
    else none
  | none => none

/-- Read `n` elements with the given element reader. -/
def decListN (f : List Nat → Option (α × List Nat)) :
    Nat → List Nat → Option (List α × List Nat)
  | 0, l => some ([], l)
  | n + 1, l =>
    match f l with
    | some (x, rest) =>
      match decListN f n rest with
      | some (xs, rest2) => some (x :: xs, rest2)
      | none => none
    | none => none

/-- Read a `Vec`: u64 length then that many elements. -/
def decList (f : List Nat → Option (α × List Nat)) (l : List Nat) :
    Option (List α × List Nat) :=
  match readU64 l with
  | some (n, rest) => decListN f n rest
  | none => none

/-- Read `n` key-value entries in stream order. -/
def decPairsN (f : List Nat → Option (α × List Nat)) :
    Nat → List Nat → Option (List (Str × α) × List Nat)
  | 0, l => some ([], l)
  | n + 1, l =>
    match decStr l with
    | some (k, rest) =>
      match f rest with
      | some (v, rest2) =>
        match decPairsN f n rest2 with
        | some (prs, rest3) => some ((k, v) :: prs, rest3)
        | none => none
      | none => none
    | none => none

/-- Rebuild a `BTreeMap` from decoded entries by inserting them in stream
order (serde's map visitor). -/
def assembleMap (prs : List (Str × α)) : List (Str × α) :=
  prs.foldl (fun m p => mapInsert p.1 p.2 m) []

/-- Read a `BTreeMap` keyed by a string newtype. -/
def decMap (f : List Nat → Option (α × List Nat)) (l : List Nat) :
    Option (List (Str × α) × List Nat) :=
  match readU64 l with
  | some (n, rest) =>
    match decPairsN f n rest with
    | some (prs, rest2) => some (assembleMap prs, rest2)
    | none => none
  | none => none

/-- Read a `Row`. -/
def decRow (l : List Nat) : Option (Row × List Nat) :=
  match decList decValue l with
  | some (vs, rest) => some (⟨vs⟩, rest)
  | none => none

/-- Read a `Table`. -/
def decTable (l : List Nat) : Option (Table × List Nat) :=
  match decStr l with
  | some (name, r1) =>
    match decList decColumn r1 with
    | some (cols, r2) =>
      match decOptStr r2 with
      | some (pk, r3) =>
        match decMap decRow r3 with
        | some (data, r4) => some (⟨name, cols, pk, data⟩, r4)
        | none => none
      | none => none
    | none => none
  | none => none

/-- Read a `Database`: what `Database::open` does to the file bytes after
`fs::read`. -/
def decDatabase (l : List Nat) : Option (Database × List Nat) :=
  match decStr l with
  | some (path, r1) =>
    match decMap decTable r1 with
    | some (tables, r2) => some (⟨path, tables⟩, r2)
    | none => none
  | none => none

/-!
Well-formedness: the representation invariants every value reachable from the
Rust program satisfies by construction - bytes of strings and blobs fit in a
`u8`, integers fit in an `i64`, float patterns fit in 64 bits, every length
fits in a `usize`/`u64`, and every `BTreeMap` association list is strictly
ascending.  Stated as Boolean functions so that concrete instances evaluate.
-/

/-- Bytes below 256 and a length below 2^64. -/
def wfStr (s : Str) : Bool :=
  s.all (fun b => decide (b < 256)) && decide (s.length < 2 ^ 64)

/-- Boolean form of `sortedKeys`. -/
def sortedKeysB : List (Str × α) → Bool
  | [] => true
  | p :: rest => rest.all (fun q => ltStr p.1 q.1) && sortedKeysB rest

/-- The payload of a `Value` is representable. -/
def wfValue : Value → Bool
  | .Null => true
  | .Integer i => decide (-(2 ^ 63) ≤ i) && decide (i < 2 ^ 63)
  | .Float bits => decide (bits < 2 ^ 64)
  | .Text s => wfStr s
  | .Boolean _ => true
  | .Blob bytes => bytes.all (fun b => decide (b < 256)) && decide (bytes.length < 2 ^ 64)

/-- Every value of a row is representable. -/
def wfRow (r : Row) : Bool :=
  r.values.all wfValue && decide (r.values.length < 2 ^ 64)

/-- A column's name is representable. -/
def wfColumn (c : Column) : Bool := wfStr c.name

/-- Every component of a table is representable and its data is a
strictly-ascending association list. -/
def wfTable (t : Table) : Bool :=
  wfStr t.name && t.columns.all wfColumn && decide (t.columns.length < 2 ^ 64) &&
    (match t.primary_key with
     | none => true
     | some s => wfStr s) &&
    sortedKeysB t.data && t.data.all (fun p => wfStr p.1 && wfRow p.2) &&
    decide (t.data.length < 2 ^ 64)

/-- Every component of a database is representable and its table map is a
strictly-ascending association list. -/
def wfDatabase (db : Database) : Bool :=
  wfStr db.path && sortedKeysB db.tables &&
    db.tables.all (fun p => wfStr p.1 && wfTable p.2) &&
    decide (db.tables.length < 2 ^ 64)

/-!
Specification-side characterizations used to state claims, and concrete
instances used by witnesses.
-/

/-- Pure variant correspondence between a declared column type and a value,
with no exemption for `Null` - the spec's "value's variant matches the
declared type". -/
def variantMatches : ColumnType → Value → Bool
  | .Integer, .Integer _ => true
  | .Float, .Float _ => true
  | .Text, .Text _ => true
  | .Boolean, .Boolean _ => true
  | .Blob, .Blob _ => true
  | _, _ => false

/-- The value of the last (highest-index) column with the given name whose
index is inside the row, if any: the characterization of what
`get_as_map` binds a name to. -/
def lastValFrom (vals : List Value) (name : Str) : Nat → List Column → Option Value
  | _, [] => none
  | i, column :: rest =>
    match lastValFrom vals name (i + 1) rest with
    | some v => some v
    | none => if column.name = name then vals[i]? else none

/-- A sample column list: `id: Integer`, `name: Text` (byte strings "id",
"name"). -/
def colsSample : List Column :=
  [⟨[105, 100], ColumnType.Integer⟩, ⟨[110, 97, 109, 101], ColumnType.Text⟩]

/-- A sample stored row matching `colsSample`. -/
def rowSample : Row := ⟨[Value.Integer 7, Value.Text [65]]⟩

/-- A sample table ("users" is byte string "u") holding `rowSample` at key
"k" (byte 107). -/
def tableSample : Table :=
  { name := [117], columns := colsSample, primary_key := none,
    data := [([107], rowSample)] }

/-- A sample database with `tableSample` under name "u". -/
def dbSample : Database :=
  { path := [112], tables := [([117], tableSample)] }

/-- A table whose columns repeat a name and whose stored row is shorter than
the column list: columns `a: Integer`, `b: Text`, `a: Text` with a
two-value row. -/
def tableRagged : Table :=
  { name := [116], columns :=
      [⟨[97], ColumnType.Integer⟩, ⟨[98], ColumnType.Text⟩, ⟨[97], ColumnType.Text⟩],
    primary_key := none,
    data := [([107], ⟨[Value.Integer 1, Value.Text [120]]⟩)] }

/-- A stored row is aligned with the schema: as many values as columns, every
value admissible for its column's declared type (`Null` included). -/
def rowOk (cols : List Column) (r : Row) : Bool :=
  (r.values.length == cols.length) &&
    (cols.zip r.values).all (fun pr => typeMatches pr.1.column_type pr.2)

/-- The table representation invariant: strictly-ascending keys and
schema-aligned rows. -/
def Table.inv (t : Table) : Prop :=
  sortedKeys t.data ∧ ∀ p ∈ t.data, rowOk t.columns p.2 = true


/-!
Lemmas about the byte-wise order.
-/

/-- The order is irreflexive. -/
theorem ltStr_irrefl : ∀ a : Str, ltStr a a = false
  | [] => rfl
  | x :: xs => by
    simp only [ltStr]
    rw [if_neg (Nat.lt_irrefl x), if_neg (Nat.lt_irrefl x)]
    exact ltStr_irrefl xs

/-- The order is transitive. -/
theorem ltStr_trans : ∀ {a b c : Str}, ltStr a b = true → ltStr b c = true →
    ltStr a c = true
  | [], [], _, h1, _ => by simp [ltStr] at h1
  | [], _ :: _, [], _, h2 => by simp [ltStr] at h2
  | [], _ :: _, _ :: _, _, _ => by simp [ltStr]
  | _ :: _, [], _, h1, _ => by simp [ltStr] at h1
  | _ :: _, _ :: _, [], _, h2 => by simp [ltStr] at h2
  | x :: xs, y :: ys, z :: zs, h1, h2 => by
    simp only [ltStr] at h1 h2 ⊢
    rcases Nat.lt_trichotomy x y with hxy | hxy | hxy
    · rcases Nat.lt_trichotomy y z with hyz | hyz | hyz
      · simp [Nat.lt_trans hxy hyz]
      · subst hyz; simp [hxy]
      · rw [if_neg (Nat.lt_asymm hyz), if_pos hyz] at h2
        exact absurd h2 (by simp)
    · subst hxy
      rw [if_neg (Nat.lt_irrefl x), if_neg (Nat.lt_irrefl x)] at h1
      rcases Nat.lt_trichotomy x z with hxz | hxz | hxz
      · simp [hxz]
      · subst hxz
        rw [if_neg (Nat.lt_irrefl x), if_neg (Nat.lt_irrefl x)] at h2 ⊢
        exact ltStr_trans h1 h2
      · rw [if_neg (Nat.lt_asymm hxz), if_pos hxz] at h2
        exact absurd h2 (by simp)
    · rw [if_neg (Nat.lt_asymm hxy), if_pos hxy] at h1
      exact absurd h1 (by simp)

/-- Two distinct strings compare one way or the other. -/
theorem ltStr_total : ∀ {a b : Str}, ltStr a b = false → a ≠ b → ltStr b a = true
  | [], [], _, hne => absurd rfl hne
  | [], _ :: _, h1, _ => by simp [ltStr] at h1
  | _ :: _, [], _, _ => by simp [ltStr]
  | x :: xs, y :: ys, h1, hne => by
    simp only [ltStr] at h1 ⊢
    rcases Nat.lt_trichotomy x y with hxy | hxy | hxy
    · rw [if_pos hxy] at h1; exact absurd h1 (by simp)
    · subst hxy
      rw [if_neg (Nat.lt_irrefl x), if_neg (Nat.lt_irrefl x)] at h1 ⊢
      exact ltStr_total h1 (fun hxs => hne (by rw [hxs]))
    · simp [hxy]

/-- The order is asymmetric. -/
theorem ltStr_asymm {a b : Str} (h : ltStr a b = true) : ltStr b a = false := by
  rw [Bool.eq_false_iff]
  intro hc
  have h2 := ltStr_trans h hc
  rw [ltStr_irrefl] at h2
  exact Bool.false_ne_true h2

/-- Strictly smaller strings are distinct. -/
theorem ltStr_ne {a b : Str} (h : ltStr a b = true) : a ≠ b := by
  rintro rfl
  rw [ltStr_irrefl] at h
  exact Bool.false_ne_true h

/-!
Lemmas about the association-list map operations.
-/

/-- Searching the key just inserted finds the new value. -/
theorem mapSearch_mapInsert_self (k : Str) (v : α) :
    ∀ l : List (Str × α), mapSearch k (mapInsert k v l) = some v
  | [] => by simp [mapInsert, mapSearch]
  | (k0, v0) :: rest => by
    simp only [mapInsert]
    by_cases h : k = k0
    · rw [if_pos h]; simp [mapSearch]
    · rw [if_neg h]
      by_cases h2 : ltStr k k0 = true
      · rw [if_pos h2]; simp [mapSearch]
      · rw [if_neg h2]
        simp only [mapSearch, if_neg h]
        exact mapSearch_mapInsert_self k v rest

/-- Entries after an insertion: the new one or an old one. -/
theorem mem_mapInsert {k : Str} {v : α} {p : Str × α} :
    ∀ {l : List (Str × α)}, p ∈ mapInsert k v l → p = (k, v) ∨ p ∈ l
  | [], h => by
    simp only [mapInsert] at h
    exact Or.inl (List.mem_singleton.mp h)
  | (k0, v0) :: rest, h => by
    simp only [mapInsert] at h
    by_cases h1 : k = k0
    · rw [if_pos h1] at h
      rcases List.mem_cons.mp h with h2 | h2
      · exact Or.inl h2
      · exact Or.inr (List.mem_cons_of_mem _ h2)
    · rw [if_neg h1] at h
      by_cases h2 : ltStr k k0 = true
      · rw [if_pos h2] at h
        rcases List.mem_cons.mp h with h3 | h3
        · exact Or.inl h3
        · exact Or.inr h3
      · rw [if_neg h2] at h
        rcases List.mem_cons.mp h with h3 | h3
        · exact Or.inr (List.mem_cons.mpr (Or.inl h3))
        · rcases mem_mapInsert h3 with h4 | h4
          · exact Or.inl h4
          · exact Or.inr (List.mem_cons_of_mem _ h4)

/-- In-place replacement keeps the key sequence. -/
theorem keys_mapReplace (k : Str) (v : α) :
    ∀ l : List (Str × α), (mapReplace k v l).map Prod.fst = l.map Prod.fst
  | [] => rfl
  | (k0, v0) :: rest => by
    simp only [mapReplace]
    by_cases h : k = k0
    · rw [if_pos h]; simp [h]
    · rw [if_neg h]; simp [keys_mapReplace k v rest]

/-- Replacing a stored value by itself changes nothing. -/
theorem mapReplace_self {k : Str} {v : α} :
    ∀ {l : List (Str × α)}, mapSearch k l = some v → mapReplace k v l = l
  | [], h => by simp [mapSearch] at h
  | (k0, v0) :: rest, h => by
    simp only [mapSearch] at h
    simp only [mapReplace]
    by_cases h1 : k = k0
    · rw [if_pos h1] at h ⊢
      obtain rfl : v0 = v := by injection h
      rw [h1]
    · rw [if_neg h1] at h ⊢
      rw [mapReplace_self h]

/-- Searching a replaced key finds the new value. -/
theorem mapSearch_mapReplace_self {k : Str} (v : α) :
    ∀ {l : List (Str × α)}, (mapSearch k l).isSome = true →
      mapSearch k (mapReplace k v l) = some v
  | [], h => by simp [mapSearch] at h
  | (k0, v0) :: rest, h => by
    simp only [mapSearch] at h
    simp only [mapReplace]
    by_cases h1 : k = k0
    · rw [if_pos h1]; simp [mapSearch]
    · rw [if_neg h1] at h ⊢
      simp only [mapSearch, if_neg h1]
      exact mapSearch_mapReplace_self v h

/-- Entries after a replacement: the new one or an old one. -/
theorem mem_mapReplace {k : Str} {v : α} {p : Str × α} :
    ∀ {l : List (Str × α)}, p ∈ mapReplace k v l → p = (k, v) ∨ p ∈ l
  | [], h => by simp [mapReplace] at h
  | (k0, v0) :: rest, h => by
    simp only [mapReplace] at h
    by_cases h1 : k = k0
    · rw [if_pos h1] at h
      rcases List.mem_cons.mp h with h2 | h2
      · exact Or.inl h2
      · exact Or.inr (List.mem_cons_of_mem _ h2)
    · rw [if_neg h1] at h
      rcases List.mem_cons.mp h with h2 | h2
      · exact Or.inr (List.mem_cons.mpr (Or.inl h2))
      · rcases mem_mapReplace h2 with h3 | h3
        · exact Or.inl h3
        · exact Or.inr (List.mem_cons_of_mem _ h3)

/-- A removal that removed nothing changes nothing. -/
theorem mapRemove_none {k : Str} :
    ∀ {l : List (Str × α)}, (mapRemove k l).1 = none → (mapRemove k l).2 = l
  | [], _ => rfl
  | (k0, v0) :: rest, h => by
    simp only [mapRemove] at h ⊢
    by_cases h1 : k = k0
    · rw [if_pos h1] at h; simp at h
    · rw [if_neg h1] at h ⊢
      simp only at h ⊢
      rw [mapRemove_none h]

/-- Entries after a removal were entries before. -/
theorem mem_mapRemove {k : Str} {p : Str × α} :
    ∀ {l : List (Str × α)}, p ∈ (mapRemove k l).2 → p ∈ l
  | [], h => by simp [mapRemove] at h
  | (k0, v0) :: rest, h => by
    simp only [mapRemove] at h
    by_cases h1 : k = k0
    · rw [if_pos h1] at h
      exact List.mem_cons_of_mem _ h
    · rw [if_neg h1] at h
      simp only at h
      rcases List.mem_cons.mp h with h2 | h2
      · exact List.mem_cons.mpr (Or.inl h2)
      · exact List.mem_cons_of_mem _ (mem_mapRemove h2)

/-- The key sequence after a removal is a subsequence of the original. -/
theorem keys_mapRemove_sublist (k : Str) :
    ∀ l : List (Str × α), ((mapRemove k l).2.map Prod.fst).Sublist (l.map Prod.fst)
  | [] => by simp [mapRemove]
  | (k0, v0) :: rest => by
    simp only [mapRemove]
    by_cases h1 : k = k0
    · rw [if_pos h1]
      simp only [List.map_cons]
      exact List.sublist_cons_self _ _
    · rw [if_neg h1]
      simp only [List.map_cons]
      exact List.Sublist.cons₂ _ (keys_mapRemove_sublist k rest)

/-- A key below every stored key is absent. -/
theorem mapSearch_eq_none_of_forall_ne {k : Str} :
    ∀ {l : List (Str × α)}, (∀ q ∈ l.map Prod.fst, q ≠ k) → mapSearch k l = none
  | [], _ => rfl
  | (k0, v0) :: rest, h => by
    simp only [mapSearch]
    have hk : ¬ k = k0 := fun he => (h k0 (by simp)) he.symm
    rw [if_neg hk]
    exact mapSearch_eq_none_of_forall_ne (fun q hq => h q (by simp [hq]))

/-!
Sortedness preservation.
-/

/-- Insertion keeps keys strictly ascending. -/
theorem sortedKeys_mapInsert {k : Str} {v : α} :
    ∀ {l : List (Str × α)}, sortedKeys l → sortedKeys (mapInsert k v l)
  | [], _ => by simp [mapInsert, sortedKeys]
  | (k0, v0) :: rest, hs => by
    have hs' : (∀ q ∈ rest.map Prod.fst, ltStr k0 q = true) ∧ sortedKeys rest := by
      simpa [sortedKeys, List.pairwise_cons] using hs
    simp only [mapInsert]
    by_cases h1 : k = k0
    · rw [if_pos h1]
      subst h1
      simpa [sortedKeys, List.pairwise_cons] using hs'
    · rw [if_neg h1]
      by_cases h2 : ltStr k k0 = true
      · rw [if_pos h2]
        simp only [sortedKeys, List.map_cons, List.pairwise_cons] at hs ⊢
        refine ⟨?_, hs⟩
        intro q hq
        rcases List.mem_cons.mp hq with rfl | hq2
        · exact h2
        · exact ltStr_trans h2 (hs'.1 q hq2)
      · rw [if_neg h2]
        have hlt : ltStr k0 k = true :=
          ltStr_total (by simpa using h2) h1
        simp only [sortedKeys, List.map_cons, List.pairwise_cons]
        constructor
        · intro q hq
          rcases List.mem_map.mp hq with ⟨p, hp, rfl⟩
          rcases mem_mapInsert hp with rfl | hp2
          · exact hlt
          · exact hs'.1 _ (List.mem_map_of_mem _ hp2)
        · exact sortedKeys_mapInsert hs'.2

/-- Replacement keeps keys strictly ascending. -/
theorem sortedKeys_mapReplace {k : Str} {v : α} {l : List (Str × α)}
    (hs : sortedKeys l) : sortedKeys (mapReplace k v l) := by
  unfold sortedKeys
  rw [keys_mapReplace]
  exact hs

/-- Removal keeps keys strictly ascending. -/
theorem sortedKeys_mapRemove {k : Str} {l : List (Str × α)} (hs : sortedKeys l) :
    sortedKeys (mapRemove k l).2 :=
  List.Pairwise.sublist (keys_mapRemove_sublist k l) hs

/-- On a strictly-ascending list, searching a removed key finds nothing. -/
theorem mapSearch_mapRemove_self {k : Str} :
    ∀ {l : List (Str × α)}, sortedKeys l → mapSearch k (mapRemove k l).2 = none
  | [], _ => rfl
  | (k0, v0) :: rest, hs => by
    have hs' : (∀ q ∈ rest.map Prod.fst, ltStr k0 q = true) ∧ sortedKeys rest := by
      simpa [sortedKeys, List.pairwise_cons] using hs
    simp only [mapRemove]
    by_cases h1 : k = k0
    · rw [if_pos h1]
      subst h1
      exact mapSearch_eq_none_of_forall_ne
        (fun q hq => Ne.symm (ltStr_ne (hs'.1 q hq)))
    · rw [if_neg h1]
      simp only [mapSearch, if_neg h1]
      exact mapSearch_mapRemove_self hs'.2

/-!
The validation loop, characterized.
-/

/-- One loop step past the column list (dead at the source's call sites). -/
theorem validateFrom_cons_none {t : Table} {i : Nat} {v : Value} {rest : List Value}
    (hcol : t.columns[i]? = none) :
    t.validateFrom i (v :: rest) = t.validateFrom (i + 1) rest := by
  simp [Table.validateFrom, Table.validate_value_type, hcol]

/-- One loop step over an admissible value. -/
theorem validateFrom_cons_match {t : Table} {i : Nat} {v : Value} {rest : List Value}
    {c : Column} (hcol : t.columns[i]? = some c)
    (hm : typeMatches c.column_type v = true) :
    t.validateFrom i (v :: rest) = t.validateFrom (i + 1) rest := by
  simp [Table.validateFrom, Table.validate_value_type, hcol, hm]

/-- One loop step over an inadmissible value stops the loop. -/
theorem validateFrom_cons_mismatch {t : Table} {i : Nat} {v : Value} {rest : List Value}
    {c : Column} (hcol : t.columns[i]? = some c)
    (hm : typeMatches c.column_type v = false) :
    t.validateFrom i (v :: rest) = .error .TypeConversionError := by
  simp [Table.validateFrom, Table.validate_value_type, hcol, hm]

/-- The loop accepts from index `i` exactly when every remaining
column/value pair is admissible (pairs beyond either list are not checked:
the source loop runs over the values, and the call sites keep indices in
bounds). -/
theorem validateFrom_ok_iff (t : Table) :
    ∀ (vs : List Value) (i : Nat),
      t.validateFrom i vs = .ok () ↔
        ∀ pr ∈ (t.columns.drop i).zip vs, typeMatches pr.1.column_type pr.2 = true := by
  intro vs
  induction vs with
  | nil => intro i; simp [Table.validateFrom]
  | cons v rest ih =>
    intro i
    cases hcol : t.columns[i]? with
    | none =>
      have hlen : t.columns.length ≤ i := List.getElem?_eq_none_iff.mp hcol
      have hdrop : t.columns.drop i = [] := List.drop_eq_nil_of_le hlen
      have hdrop2 : t.columns.drop (i + 1) = [] :=
        List.drop_eq_nil_of_le (Nat.le_succ_of_le hlen)
      rw [validateFrom_cons_none hcol, ih (i + 1), hdrop, hdrop2]
      simp
    | some c =>
      have hi : i < t.columns.length := by
        rcases Nat.lt_or_ge i t.columns.length with h | h
        · exact h
        · rw [List.getElem?_eq_none h] at hcol; cases hcol
      have hceq : t.columns[i] = c := by
        have h2 := List.getElem?_eq_getElem hi
        rw [hcol] at h2
        injection h2 with h3
        exact h3.symm
      have hdrop : t.columns.drop i = c :: t.columns.drop (i + 1) := by
        rw [List.drop_eq_getElem_cons hi, hceq]
      rw [hdrop]
      cases hm : typeMatches c.column_type v with
      | true =>
        rw [validateFrom_cons_match hcol hm, ih (i + 1)]
        simp only [List.zip_cons_cons, List.mem_cons]
        constructor
        · intro hall pr hpr
          rcases hpr with rfl | hpr2
          · exact hm
          · exact hall pr hpr2
        · intro hall pr hpr
          exact hall pr (Or.inr hpr)
      | false =>
        rw [validateFrom_cons_mismatch hcol hm]
        simp only [List.zip_cons_cons, List.mem_cons]
        constructor
        · intro hfalse; cases hfalse
        · intro hall
          have h5 := hall (c, v) (Or.inl rfl)
          rw [hm] at h5
          cases h5

/-- The only error the loop can report is `TypeConversionError`. -/
theorem validateFrom_error_eq (t : Table) :
    ∀ (vs : List Value) (i : Nat) (e : DbError),
      t.validateFrom i vs = .error e → e = .TypeConversionError := by
  intro vs
  induction vs with
  | nil => intro i e h; cases h
  | cons v rest ih =>
    intro i e h
    cases hcol : t.columns[i]? with
    | none =>
      rw [validateFrom_cons_none hcol] at h
      exact ih (i + 1) e h
    | some c =>
      cases hm : typeMatches c.column_type v with
      | true =>
        rw [validateFrom_cons_match hcol hm] at h
        exact ih (i + 1) e h
      | false =>
        rw [validateFrom_cons_mismatch hcol hm] at h
        injection h with h2
        exact h2.symm

/-- The loop either accepts or reports a `TypeConversionError`. -/
theorem validateFrom_cases (t : Table) (vs : List Value) (i : Nat) :
    t.validateFrom i vs = .ok () ∨ t.validateFrom i vs = .error .TypeConversionError := by
  cases hv : t.validateFrom i vs with
  | ok u => cases u; exact Or.inl rfl
  | error e =>
    have he := validateFrom_error_eq t vs i e hv
    subst he
    exact Or.inr rfl

/-!
Branch equations for the table operations.
-/

/-- `insert` on a present key. -/
theorem insert_of_exists {t : Table} {k : Str} {vs : List Value}
    (h : (mapSearch k t.data).isSome = true) :
    t.insert k vs = (.error .KeyExists, t) := by
  simp [Table.insert, h]

/-- `insert` on an absent key with wrong arity. -/
theorem insert_of_arity {t : Table} {k : Str} {vs : List Value}
    (h : (mapSearch k t.data).isSome = false)
    (h2 : vs.length ≠ t.columns.length) :
    t.insert k vs = (.error (.Other (arityMsg t.columns.length vs.length)), t) := by
  simp [Table.insert, h, h2]

/-- `insert` on an absent key, right arity, failing validation. -/
theorem insert_of_typefail {t : Table} {k : Str} {vs : List Value}
    (h : (mapSearch k t.data).isSome = false)
    (h2 : vs.length = t.columns.length)
    (h3 : t.validateFrom 0 vs = .error .TypeConversionError) :
    t.insert k vs = (.error .TypeConversionError, t) := by
  simp [Table.insert, h, h2, h3]

/-- `insert` with every check passing. -/
theorem insert_of_ok {t : Table} {k : Str} {vs : List Value}
    (h : (mapSearch k t.data).isSome = false)
    (h2 : vs.length = t.columns.length)
    (h3 : t.validateFrom 0 vs = .ok ()) :
    t.insert k vs = (.ok (), { t with data := mapInsert k (Row.new vs) t.data }) := by
  simp [Table.insert, h, h2, h3]

/-- `update` on an absent key. -/
theorem update_of_missing {t : Table} {k : Str} {vs : List Value}
    (hms : mapSearch k t.data = none) :
    t.update k vs = (.error .KeyNotFound, t) := by
  simp [Table.update, hms]

/-- `update` on a present key with wrong arity. -/
theorem update_of_arity {t : Table} {k : Str} {vs : List Value} {r : Row}
    (hms : mapSearch k t.data = some r)
    (h2 : vs.length ≠ t.columns.length) :
    t.update k vs = (.error (.Other (arityMsg t.columns.length vs.length)), t) := by
  simp [Table.update, hms, h2]

/-- `update` on a present key, right arity, failing validation. -/
theorem update_of_typefail {t : Table} {k : Str} {vs : List Value} {r : Row}
    (hms : mapSearch k t.data = some r)
    (h2 : vs.length = t.columns.length)
    (h3 : t.validateFrom 0 vs = .error .TypeConversionError) :
    t.update k vs = (.error .TypeConversionError, t) := by
  simp [Table.update, hms, h2, h3]

/-- `update` with every check passing. -/
theorem update_of_ok {t : Table} {k : Str} {vs : List Value} {r : Row}
    (hms : mapSearch k t.data = some r)
    (h2 : vs.length = t.columns.length)
    (h3 : t.validateFrom 0 vs = .ok ()) :
    t.update k vs = (.ok (), { t with data := mapReplace k (Row.new vs) t.data }) := by
  simp [Table.update, hms, h2, h3]

/-!
Invariant preservation.
-/

/-- A fresh table satisfies the invariant. -/
theorem inv_new (name : Str) (cols : List Column) (pk : Option Str) :
    (Table.new name cols pk).inv := by
  constructor
  · simp [Table.new, sortedKeys]
  · intro p hp; simp [Table.new] at hp

/-- `insert` preserves the invariant. -/
theorem inv_insert {t : Table} (k : Str) (vs : List Value) (h : t.inv) :
    ((t.insert k vs).2).inv := by
  by_cases h1 : (mapSearch k t.data).isSome = true
  · rw [insert_of_exists h1]; exact h
  · have h1' : (mapSearch k t.data).isSome = false := by
      simpa using h1
    by_cases h2 : vs.length = t.columns.length
    · rcases validateFrom_cases t vs 0 with h3 | h3
      · rw [insert_of_ok h1' h2 h3]
        refine ⟨sortedKeys_mapInsert h.1, ?_⟩
        intro p hp
        rcases mem_mapInsert hp with rfl | hp2
        · simp only [rowOk, Row.new, Bool.and_eq_true]
          refine ⟨by simpa using h2, ?_⟩
          rw [List.all_eq_true]
          intro pr hpr
          have h4 := (validateFrom_ok_iff t vs 0).mp h3
          exact h4 pr (by simpa using hpr)
        · exact h.2 p hp2
      · rw [insert_of_typefail h1' h2 h3]; exact h
    · rw [insert_of_arity h1' h2]; exact h

/-- `update` preserves the invariant. -/
theorem inv_update {t : Table} (k : Str) (vs : List Value) (h : t.inv) :
    ((t.update k vs).2).inv := by
  cases hms : mapSearch k t.data with
  | none => rw [update_of_missing hms]; exact h
  | some r =>
    by_cases h2 : vs.length = t.columns.length
    · rcases validateFrom_cases t vs 0 with h3 | h3
      · rw [update_of_ok hms h2 h3]
        refine ⟨sortedKeys_mapReplace h.1, ?_⟩
        intro p hp
        rcases mem_mapReplace hp with rfl | hp2
        · simp only [rowOk, Row.new, Bool.and_eq_true]
          refine ⟨by simpa using h2, ?_⟩
          rw [List.all_eq_true]
          intro pr hpr
          have h4 := (validateFrom_ok_iff t vs 0).mp h3
          exact h4 pr (by simpa using hpr)
        · exact h.2 p hp2
      · rw [update_of_typefail hms h2 h3]; exact h
    · rw [update_of_arity hms h2]; exact h

/-- `delete` preserves the invariant. -/
theorem inv_delete {t : Table} (k : Str) (h : t.inv) : ((t.delete k).2).inv := by
  have hinv2 : (Table.mk t.name t.columns t.primary_key (mapRemove k t.data).2).inv := by
    refine ⟨sortedKeys_mapRemove h.1, ?_⟩
    intro p hp
    exact h.2 p (mem_mapRemove hp)
  simp only [Table.delete]
  cases (mapRemove k t.data).1 <;> exact hinv2

/-- One mutating call preserves the invariant. -/
theorem inv_applyOp {t : Table} (op : TableOp) (h : t.inv) : (t.applyOp op).inv := by
  cases op with
  | insertOp k vs => exact inv_insert k vs h
  | updateOp k vs => exact inv_update k vs h
  | deleteOp k => exact inv_delete k h

/-- Unfolding one step of an operation sequence. -/
theorem applyOps_cons (t : Table) (op : TableOp) (rest : List TableOp) :
    t.applyOps (op :: rest) = (t.applyOp op).applyOps rest := rfl

/-- A sequence of mutating calls preserves the invariant. -/
theorem inv_applyOps {t : Table} (ops : List TableOp) (h : t.inv) :
    (t.applyOps ops).inv := by
  induction ops generalizing t with
  | nil => exact h
  | cons op rest ih => exact ih (inv_applyOp op h)

/-- `insert` never changes the schema. -/
theorem columns_insert (t : Table) (k : Str) (vs : List Value) :
    ((t.insert k vs).2).columns = t.columns := by
  simp only [Table.insert]
  split
  · rfl
  · split
    · rfl
    · split <;> rfl

/-- `update` never changes the schema. -/
theorem columns_update (t : Table) (k : Str) (vs : List Value) :
    ((t.update k vs).2).columns = t.columns := by
  simp only [Table.update]
  split
  · rfl
  · split
    · rfl
    · split
      · rfl
      · split <;> rfl

/-- `delete` never changes the schema. -/
theorem columns_delete (t : Table) (k : Str) :
    ((t.delete k).2).columns = t.columns := by
  simp only [Table.delete]
  split <;> rfl

/-- One mutating call never changes the schema. -/
theorem columns_applyOp (t : Table) (op : TableOp) :
    (t.applyOp op).columns = t.columns := by
  cases op with
  | insertOp k vs => exact columns_insert t k vs
  | updateOp k vs => exact columns_update t k vs
  | deleteOp k => exact columns_delete t k

/-- A sequence of mutating calls never changes the schema. -/
theorem columns_applyOps (t : Table) (ops : List TableOp) :
    (t.applyOps ops).columns = t.columns := by
  induction ops generalizing t with
  | nil => rfl
  | cons op rest ih => rw [applyOps_cons, ih, columns_applyOp]

/-- The traversal of `find` is a filter over the entries. -/
theorem findAux_eq_filter (p : Row → Bool) :
    ∀ l : List (Str × Row), findAux p l = l.filter (fun pr => p pr.2)
  | [] => rfl
  | (k, v) :: rest => by
    simp only [findAux, List.filter_cons]
    by_cases h : p v = true
    · simp [h, findAux_eq_filter p rest]
    · simp [h, findAux_eq_filter p rest]

/-!
Round-trip lemmas for the byte encoding.
-/

/-- A fixed-width encoding has its width. -/
theorem natLE_length : ∀ (k n : Nat), (natLE k n).length = k
  | 0, _ => rfl
  | k + 1, n => by simp [natLE, natLE_length k (n / 256)]

/-- Decoding the little-endian digits recovers the value modulo the width. -/
theorem leVal_natLE : ∀ (k n : Nat), leVal (natLE k n) = n % 256 ^ k
  | 0, n => by simp [natLE, leVal, Nat.mod_one]
  | k + 1, n => by
    rw [natLE, leVal, leVal_natLE k (n / 256)]
    rw [pow_succ, mul_comm (256 ^ k) 256]
    exact (Nat.mod_mul).symm

/-- Reading back exactly the bytes just written. -/
theorem readBytes_append : ∀ (l rest : List Nat), readBytes l.length (l ++ rest) = some (l, rest)
  | [], _ => rfl
  | b :: bs, rest => by simp [readBytes, readBytes_append bs rest]

/-- Reading back a fixed-width block. -/
theorem readBytes_natLE (k n : Nat) (rest : List Nat) :
    readBytes k (natLE k n ++ rest) = some (natLE k n, rest) := by
  have h := readBytes_append (natLE k n) rest
  rwa [natLE_length] at h

/-- `u64` round trip. -/
theorem readU64_u64le {n : Nat} (h : n < 2 ^ 64) (rest : List Nat) :
    readU64 (u64le n ++ rest) = some (n, rest) := by
  have h2 : n % 256 ^ 8 = n := by
    have h3 : (256 : Nat) ^ 8 = 2 ^ 64 := by norm_num
    rw [h3]
    exact Nat.mod_eq_of_lt h
  have h4 : n < 18446744073709551616 := by
    norm_num at h
    exact h
  simp [readU64, u64le, readBytes_natLE, leVal_natLE, h2, h4]

/-- `u32` round trip. -/
theorem readU32_u32le {n : Nat} (h : n < 2 ^ 32) (rest : List Nat) :
    readU32 (u32le n ++ rest) = some (n, rest) := by
  have h2 : n % 256 ^ 4 = n := by
    have h3 : (256 : Nat) ^ 4 = 2 ^ 32 := by norm_num
    rw [h3]
    exact Nat.mod_eq_of_lt h
  have h4 : n < 4294967296 := by
    norm_num at h
    exact h
  simp [readU32, u32le, readBytes_natLE, leVal_natLE, h2, h4]

/-- `i64` round trip on the representable range. -/
theorem decI64_i64le {i : Int} (h1 : -(2 ^ 63) ≤ i) (h2 : i < 2 ^ 63) (rest : List Nat) :
    decI64 (i64le i ++ rest) = some (i, rest) := by
  have hm0 : (0 : Int) ≤ i % 2 ^ 64 := Int.emod_nonneg i (by norm_num)
  have hm1 : i % 2 ^ 64 < 2 ^ 64 := Int.emod_lt_of_pos i (by norm_num)
  have hn : (i % 2 ^ 64).toNat < 2 ^ 64 := by
    norm_num at hm1 ⊢
    omega
  have hval : (if (i % 2 ^ 64).toNat < 2 ^ 63 then (((i % 2 ^ 64).toNat : Nat) : Int)
      else (((i % 2 ^ 64).toNat : Nat) : Int) - 2 ^ 64) = i := by
    norm_num at h1 h2 hm0 hm1 ⊢
    split <;> omega
  simp only [decI64, i64le, readU64_u64le hn, hval]

/-- Representable bytes are untouched by the `u8` truncation. -/
theorem map_mod_eq_self : ∀ {s : List Nat}, (∀ b ∈ s, b < 256) → s.map (· % 256) = s
  | [], _ => rfl
  | b :: bs, h => by
    have hb : b % 256 = b := Nat.mod_eq_of_lt (h b (List.mem_cons_self b bs))
    have htail : ∀ x ∈ bs, x < 256 := fun x hx => h x (List.mem_cons_of_mem b hx)
    simp only [List.map_cons, hb, map_mod_eq_self htail]

/-- `String` round trip. -/
theorem decStr_encStr {s : Str} (h : wfStr s = true) (rest : List Nat) :
    decStr (encStr s ++ rest) = some (s, rest) := by
  obtain ⟨hb, hlen⟩ : (∀ b ∈ s, b < 256) ∧ s.length < 2 ^ 64 := by
    simpa [wfStr, List.all_eq_true] using h
  have hmap : s.map (· % 256) = s := map_mod_eq_self hb
  simp only [decStr, encStr, List.append_assoc, readU64_u64le hlen, hmap,
    readBytes_append]

/-- `bool` round trip. -/
theorem decBool_encBool (b : Bool) (rest : List Nat) :
    decBool (encBool b ++ rest) = some (b, rest) := by
  cases b <;> simp [decBool, encBool, readByte]

/-- `Option<String>` round trip. -/
theorem decOptStr_encOptStr {o : Option Str}
    (h : (match o with | none => true | some s => wfStr s) = true) (rest : List Nat) :
    decOptStr (encOptStr o ++ rest) = some (o, rest) := by
  cases o with
  | none => simp [decOptStr, encOptStr, readByte]
  | some s => simp [decOptStr, encOptStr, readByte, decStr_encStr h rest]

/-- `ColumnType` round trip. -/
theorem decColumnType_enc (ct : ColumnType) (rest : List Nat) :
    decColumnType (encColumnType ct ++ rest) = some (ct, rest) := by
  cases ct with
  | Integer => simp [decColumnType, encColumnType, @readU32_u32le 0 (by norm_num) rest]
  | Float => simp [decColumnType, encColumnType, @readU32_u32le 1 (by norm_num) rest]
  | Text => simp [decColumnType, encColumnType, @readU32_u32le 2 (by norm_num) rest]
  | Boolean => simp [decColumnType, encColumnType, @readU32_u32le 3 (by norm_num) rest]
  | Blob => simp [decColumnType, encColumnType, @readU32_u32le 4 (by norm_num) rest]

/-- `Column` round trip. -/
theorem decColumn_enc {c : Column} (h : wfColumn c = true) (rest : List Nat) :
    decColumn (encColumn c ++ rest) = some (c, rest) := by
  simp [decColumn, encColumn, List.append_assoc, decStr_encStr h,
    decColumnType_enc c.column_type rest]

/-- `Value` round trip. -/
theorem decValue_enc {v : Value} (h : wfValue v = true) (rest : List Nat) :
    decValue (encValue v ++ rest) = some (v, rest) := by
  cases v with
  | Null => simp [decValue, encValue, @readU32_u32le 0 (by norm_num) rest]
  | Integer i =>
    obtain ⟨h1, h2⟩ : -(2 ^ 63) ≤ i ∧ i < 2 ^ 63 := by simpa [wfValue] using h
    simp [decValue, encValue, List.append_assoc, @readU32_u32le 1 (by norm_num),
      decI64_i64le h1 h2 rest]
  | Float bits =>
    have h1 : bits < 2 ^ 64 := by simpa [wfValue] using h
    simp [decValue, encValue, List.append_assoc, @readU32_u32le 2 (by norm_num),
      readU64_u64le h1 rest]
  | Text s =>
    have h1 : wfStr s = true := by simpa [wfValue] using h
    simp [decValue, encValue, List.append_assoc, @readU32_u32le 3 (by norm_num),
      decStr_encStr h1 rest]
  | Boolean b =>
    simp [decValue, encValue, List.append_assoc, @readU32_u32le 4 (by norm_num),
      decBool_encBool b rest]
  | Blob bytes =>
    have h1 : wfStr bytes = true := by
      simp only [wfValue] at h
      simpa [wfStr] using h
    have h2 := decStr_encStr h1 rest
    simp only [encStr, List.append_assoc] at h2
    simp [decValue, encValue, encBlob, List.append_assoc,
      @readU32_u32le 5 (by norm_num), h2]

/-- Element-count-directed sequence round trip, given a round trip per
element. -/
theorem decListN_enc {α : Type} (f : α → List Nat) (g : List Nat → Option (α × List Nat)) :
    ∀ (l : List α), (∀ x ∈ l, ∀ r, g (f x ++ r) = some (x, r)) →
      ∀ rest, decListN g l.length (encListAux f l ++ rest) = some (l, rest)
  | [], _, rest => rfl
  | x :: xs, h, rest => by
    have hx := h x (List.mem_cons_self x xs) (encListAux f xs ++ rest)
    have htail : ∀ y ∈ xs, ∀ r, g (f y ++ r) = some (y, r) :=
      fun y hy => h y (List.mem_cons_of_mem x hy)
    simp [encListAux, decListN, List.append_assoc, hx,
      decListN_enc f g xs htail rest]

/-- `Vec` round trip. -/
theorem decList_enc {α : Type} (f : α → List Nat) (g : List Nat → Option (α × List Nat))
    (l : List α) (hlen : l.length < 2 ^ 64)
    (h : ∀ x ∈ l, ∀ r, g (f x ++ r) = some (x, r)) (rest : List Nat) :
    decList g (encList f l ++ rest) = some (l, rest) := by
  simp [decList, encList, List.append_assoc, readU64_u64le hlen,
    decListN_enc f g l h rest]

/-- Entry-count-directed map-entry round trip. -/
theorem decPairsN_enc {α : Type} (f : α → List Nat) (g : List Nat → Option (α × List Nat)) :
    ∀ (l : List (Str × α)),
      (∀ p ∈ l, wfStr p.1 = true ∧ ∀ r, g (f p.2 ++ r) = some (p.2, r)) →
      ∀ rest, decPairsN g l.length (encPairsAux f l ++ rest) = some (l, rest)
  | [], _, rest => rfl
  | (k, v) :: xs, h, rest => by
    have hk := (h (k, v) (List.mem_cons_self (k, v) xs)).1
    have hv := (h (k, v) (List.mem_cons_self (k, v) xs)).2
      (encPairsAux f xs ++ rest)
    have htail : ∀ p ∈ xs, wfStr p.1 = true ∧ ∀ r, g (f p.2 ++ r) = some (p.2, r) :=
      fun p hp => h p (List.mem_cons_of_mem (k, v) hp)
    simp [encPairsAux, decPairsN, List.append_assoc,
      decStr_encStr hk, hv, decPairsN_enc f g xs htail rest]

/-- Inserting a key above every stored key appends. -/
theorem mapInsert_append {k : Str} {v : α} :
    ∀ {acc : List (Str × α)}, (∀ p ∈ acc, ltStr p.1 k = true) →
      mapInsert k v acc = acc ++ [(k, v)]
  | [], _ => rfl
  | (k0, v0) :: rest, h => by
    have h0 : ltStr k0 k = true := h (k0, v0) (List.mem_cons_self (k0, v0) rest)
    have hne : ¬ k = k0 := fun he => ltStr_ne h0 he.symm
    have hnl : ¬ ltStr k k0 = true := by simp [ltStr_asymm h0]
    have htail : ∀ p ∈ rest, ltStr p.1 k = true :=
      fun p hp => h p (List.mem_cons_of_mem (k0, v0) hp)
    simp only [mapInsert, if_neg hne, if_neg hnl, mapInsert_append htail,
      List.cons_append]

/-- Entry-by-entry insertion of an ascending entry stream rebuilds exactly
that list. -/
theorem foldl_mapInsert_sorted :
    ∀ (l acc : List (Str × α)), sortedKeysB l = true →
      (∀ p ∈ acc, ∀ q ∈ l, ltStr p.1 q.1 = true) →
      l.foldl (fun m p => mapInsert p.1 p.2 m) acc = acc ++ l
  | [], acc, _, _ => by simp
  | (k, v) :: rest, acc, hs, hcross => by
    have hs' : (∀ q ∈ rest, ltStr k q.1 = true) ∧ sortedKeysB rest := by
      simpa [sortedKeysB, List.all_eq_true] using hs
    have hcross2 : ∀ p ∈ acc ++ [(k, v)], ∀ q ∈ rest, ltStr p.1 q.1 = true := by
      intro p hp q hq
      rcases List.mem_append.mp hp with hp2 | hp2
      · exact hcross p hp2 q (List.mem_cons_of_mem (k, v) hq)
      · have hpk : p = (k, v) := List.mem_singleton.mp hp2
        subst hpk
        exact hs'.1 q hq
    have hacc : ∀ p ∈ acc, ltStr p.1 k = true :=
      fun p hp => hcross p hp (k, v) (List.mem_cons_self (k, v) rest)
    simp only [List.foldl_cons]
    rw [mapInsert_append hacc, foldl_mapInsert_sorted rest (acc ++ [(k, v)]) hs'.2 hcross2]
    simp

/-- Rebuilding a decoded ascending entry stream yields that stream. -/
theorem assembleMap_sorted {l : List (Str × α)} (h : sortedKeysB l = true) :
    assembleMap l = l := by
  unfold assembleMap
  rw [foldl_mapInsert_sorted l [] h (fun p hp => absurd hp (List.not_mem_nil p))]
  simp

/-- `BTreeMap` round trip. -/
theorem decMap_enc {α : Type} (f : α → List Nat) (g : List Nat → Option (α × List Nat))
    (l : List (Str × α)) (hlen : l.length < 2 ^ 64) (hs : sortedKeysB l = true)
    (h : ∀ p ∈ l, wfStr p.1 = true ∧ ∀ r, g (f p.2 ++ r) = some (p.2, r))
    (rest : List Nat) :
    decMap g (encMap f l ++ rest) = some (l, rest) := by
  simp [decMap, encMap, List.append_assoc, readU64_u64le hlen,
    decPairsN_enc f g l h rest, assembleMap_sorted hs]

/-- `Row` round trip. -/
theorem decRow_encRow {r : Row} (h : wfRow r = true) (rest : List Nat) :
    decRow (encRow r ++ rest) = some (r, rest) := by
  obtain ⟨hv, hlen⟩ : (∀ v ∈ r.values, wfValue v = true) ∧ r.values.length < 2 ^ 64 := by
    simpa [wfRow, List.all_eq_true] using h
  simp [decRow, encRow,
    decList_enc encValue decValue r.values hlen
      (fun v hv2 r2 => decValue_enc (hv v hv2) r2) rest]

/-- `Table` round trip. -/
theorem decTable_encTable {t : Table} (h : wfTable t = true) (rest : List Nat) :
    decTable (encTable t ++ rest) = some (t, rest) := by
  simp only [wfTable, Bool.and_eq_true] at h
  obtain ⟨⟨⟨⟨⟨⟨h1, h2⟩, h3⟩, h4⟩, h5⟩, h6⟩, h7⟩ := h
  have hcols : ∀ c ∈ t.columns, wfColumn c = true := List.all_eq_true.mp h2
  have hrows : ∀ p ∈ t.data, wfStr p.1 = true ∧ wfRow p.2 = true := by
    intro p hp
    have h8 := List.all_eq_true.mp h6 p hp
    simpa using h8
  simp only [decTable, encTable, List.append_assoc, decStr_encStr h1,
    decList_enc encColumn decColumn t.columns (by simpa using h3)
      (fun c hc r2 => decColumn_enc (hcols c hc) r2),
    decOptStr_encOptStr h4,
    decMap_enc encRow decRow t.data (by simpa using h7) h5
      (fun p hp => ⟨(hrows p hp).1, fun r2 => decRow_encRow (hrows p hp).2 r2⟩)]

/-- `Database` round trip with nothing left over: the bytes `save` writes,
read back by `open`. -/
theorem decDatabase_encDatabase {db : Database} (h : wfDatabase db = true) :
    decDatabase (encDatabase db) = some (db, []) := by
  simp only [wfDatabase, Bool.and_eq_true] at h
  obtain ⟨⟨⟨h1, h2⟩, h3⟩, h4⟩ := h
  have htabs : ∀ p ∈ db.tables, wfStr p.1 = true ∧ wfTable p.2 = true := by
    intro p hp
    have h8 := List.all_eq_true.mp h3 p hp
    simpa using h8
  have henc : encDatabase db = encStr db.path ++ (encMap encTable db.tables ++ []) := by
    simp [encDatabase]
  rw [decDatabase, henc]
  simp only [decStr_encStr h1,
    decMap_enc encTable decTable db.tables (by simpa using h4) h2
      (fun p hp => ⟨(htabs p hp).1, fun r2 => decTable_encTable (htabs p hp).2 r2⟩)]

/-!
Error and success paths of the table mutators, as needed at the database
layer.
-/

/-- A failing `Table::insert` leaves the table untouched. -/
theorem table_insert_err_state {t : Table} {k : Str} {vs : List Value} {e : DbError}
    (h : (t.insert k vs).1 = .error e) : (t.insert k vs).2 = t := by
  by_cases h1 : (mapSearch k t.data).isSome = true
  · rw [insert_of_exists h1]
  · have h1' : (mapSearch k t.data).isSome = false := by simpa using h1
    by_cases h2 : vs.length = t.columns.length
    · rcases validateFrom_cases t vs 0 with h3 | h3
      · rw [insert_of_ok h1' h2 h3] at h; simp at h
      · rw [insert_of_typefail h1' h2 h3]
    · rw [insert_of_arity h1' h2]

/-- A failing `Table::update` leaves the table untouched. -/
theorem table_update_err_state {t : Table} {k : Str} {vs : List Value} {e : DbError}
    (h : (t.update k vs).1 = .error e) : (t.update k vs).2 = t := by
  cases hms : mapSearch k t.data with
  | none => rw [update_of_missing hms]
  | some r =>
    by_cases h2 : vs.length = t.columns.length
    · rcases validateFrom_cases t vs 0 with h3 | h3
      · rw [update_of_ok hms h2 h3] at h; simp at h
      · rw [update_of_typefail hms h2 h3]
    · rw [update_of_arity hms h2]

/-- A failing `Table::delete` leaves the table untouched. -/
theorem table_delete_err_state {t : Table} {k : Str} {e : DbError}
    (h : (t.delete k).1 = .error e) : (t.delete k).2 = t := by
  cases hrem : (mapRemove k t.data).1 with
  | some v => simp [Table.delete, hrem] at h
  | none =>
    simp only [Table.delete, hrem]
    rw [mapRemove_none hrem]

/-- `Table::insert` never reports an I/O error. -/
theorem table_insert_err_ne_io {t : Table} {k : Str} {vs : List Value} {e : DbError}
    (h : (t.insert k vs).1 = .error e) : e ≠ .IoError := by
  by_cases h1 : (mapSearch k t.data).isSome = true
  · rw [insert_of_exists h1] at h
    injection h with h2
    rw [← h2]
    intro hc; cases hc
  · have h1' : (mapSearch k t.data).isSome = false := by simpa using h1
    by_cases h2 : vs.length = t.columns.length
    · rcases validateFrom_cases t vs 0 with h3 | h3
      · rw [insert_of_ok h1' h2 h3] at h; simp at h
      · rw [insert_of_typefail h1' h2 h3] at h
        injection h with h4
        rw [← h4]
        intro hc; cases hc
    · rw [insert_of_arity h1' h2] at h
      injection h with h4
      rw [← h4]
      intro hc; cases hc

/-- `Table::update` never reports an I/O error. -/
theorem table_update_err_ne_io {t : Table} {k : Str} {vs : List Value} {e : DbError}
    (h : (t.update k vs).1 = .error e) : e ≠ .IoError := by
  cases hms : mapSearch k t.data with
  | none =>
    rw [update_of_missing hms] at h
    injection h with h2
    rw [← h2]
    intro hc; cases hc
  | some r =>
    by_cases h2 : vs.length = t.columns.length
    · rcases validateFrom_cases t vs 0 with h3 | h3
      · rw [update_of_ok hms h2 h3] at h; simp at h
      · rw [update_of_typefail hms h2 h3] at h
        injection h with h4
        rw [← h4]
        intro hc; cases hc
    · rw [update_of_arity hms h2] at h
      injection h with h4
      rw [← h4]
      intro hc; cases hc

/-- `Table::delete` never reports an I/O error. -/
theorem table_delete_err_ne_io {t : Table} {k : Str} {e : DbError}
    (h : (t.delete k).1 = .error e) : e ≠ .IoError := by
  cases hrem : (mapRemove k t.data).1 with
  | some v => simp [Table.delete, hrem] at h
  | none =>
    simp only [Table.delete, hrem] at h
    injection h with h2
    rw [← h2]
    intro hc; cases hc

/-- After a successful `Table::insert`, the key reads back the new row. -/
theorem table_insert_ok_get {t : Table} {k : Str} {vs : List Value}
    (h : (t.insert k vs).1 = .ok ()) : ((t.insert k vs).2).get k = .ok (Row.new vs) := by
  by_cases h1 : (mapSearch k t.data).isSome = true
  · rw [insert_of_exists h1] at h; simp at h
  · have h1' : (mapSearch k t.data).isSome = false := by simpa using h1
    by_cases h2 : vs.length = t.columns.length
    · rcases validateFrom_cases t vs 0 with h3 | h3
      · rw [insert_of_ok h1' h2 h3]
        simp [Table.get, mapSearch_mapInsert_self]
      · rw [insert_of_typefail h1' h2 h3] at h; simp at h
    · rw [insert_of_arity h1' h2] at h; simp at h

/-- After a successful `Table::update`, the key reads back the new row. -/
theorem table_update_ok_get {t : Table} {k : Str} {vs : List Value}
    (h : (t.update k vs).1 = .ok ()) : ((t.update k vs).2).get k = .ok (Row.new vs) := by
  cases hms : mapSearch k t.data with
  | none => rw [update_of_missing hms] at h; simp at h
  | some r =>
    by_cases h2 : vs.length = t.columns.length
    · rcases validateFrom_cases t vs 0 with h3 | h3
      · rw [update_of_ok hms h2 h3]
        have hsome : (mapSearch k t.data).isSome = true := by
          rw [hms]; rfl
        simp [Table.get, mapSearch_mapReplace_self (Row.new vs) hsome]
      · rw [update_of_typefail hms h2 h3] at h; simp at h
    · rw [update_of_arity hms h2] at h; simp at h

/-- After a successful `Table::delete` on ascending data, the key is gone. -/
theorem table_delete_ok_get {t : Table} {k : Str} (hs : sortedKeys t.data)
    (h : (t.delete k).1 = .ok ()) : ((t.delete k).2).get k = .error .KeyNotFound := by
  cases hrem : (mapRemove k t.data).1 with
  | none => simp [Table.delete, hrem] at h
  | some v =>
    simp only [Table.delete, hrem]
    simp [Table.get, mapSearch_mapRemove_self hs]

/-!
Database-layer branch lemmas.
-/

/-- A found entry is an entry. -/
theorem mapSearch_mem {k : Str} {v : α} :
    ∀ {l : List (Str × α)}, mapSearch k l = some v → (k, v) ∈ l
  | [], h => by simp [mapSearch] at h
  | (k0, v0) :: rest, h => by
    simp only [mapSearch] at h
    by_cases h1 : k = k0
    · rw [if_pos h1] at h
      injection h with h2
      subst h1
      subst h2
      exact List.mem_cons_self _ _
    · rw [if_neg h1] at h
      exact List.mem_cons_of_mem _ (mapSearch_mem h)

/-- Writing a table back where it was found changes nothing. -/
theorem withTable_self {db : Database} {tn : Str} {t : Table}
    (hm : mapSearch tn db.tables = some t) : db.withTable tn t = db := by
  simp [Database.withTable, mapReplace_self hm]

/-- Reading the table just written back. -/
theorem withTable_get {db : Database} {tn : Str} {t : Table} (t2 : Table)
    (hm : mapSearch tn db.tables = some t) (k : Str) :
    (db.withTable tn t2).get tn k = t2.get k := by
  have hsome : (mapSearch tn db.tables).isSome = true := by rw [hm]; rfl
  simp [Database.withTable, Database.get, mapSearch_mapReplace_self t2 hsome]

/-- `Database::insert` with no such table. -/
theorem dbInsert_missing {db : Database} {saveOk : Bool} {tn k : Str} {vs : List Value}
    (hm : mapSearch tn db.tables = none) :
    db.insert saveOk tn k vs = (.error .TableNotFound, db) := by
  simp [Database.insert, hm]

/-- `Database::insert` whose table-level call failed. -/
theorem dbInsert_tbl_err {db : Database} {saveOk : Bool} {tn k : Str}
    {vs : List Value} {t : Table} {e : DbError}
    (hm : mapSearch tn db.tables = some t) (hr : (t.insert k vs).1 = .error e) :
    db.insert saveOk tn k vs = (.error e, db.withTable tn (t.insert k vs).2) := by
  simp [Database.insert, hm, hr]

/-- `Database::insert` whose table-level call succeeded. -/
theorem dbInsert_tbl_ok {db : Database} {saveOk : Bool} {tn k : Str}
    {vs : List Value} {t : Table}
    (hm : mapSearch tn db.tables = some t) (hr : (t.insert k vs).1 = .ok ()) :
    db.insert saveOk tn k vs =
      ((db.withTable tn (t.insert k vs).2).save saveOk,
        db.withTable tn (t.insert k vs).2) := by
  simp [Database.insert, hm, hr]

/-- `Database::update` with no such table. -/
theorem dbUpdate_missing {db : Database} {saveOk : Bool} {tn k : Str} {vs : List Value}
    (hm : mapSearch tn db.tables = none) :
    db.update saveOk tn k vs = (.error .TableNotFound, db) := by
  simp [Database.update, hm]

/-- `Database::update` whose table-level call failed. -/
theorem dbUpdate_tbl_err {db : Database} {saveOk : Bool} {tn k : Str}
    {vs : List Value} {t : Table} {e : DbError}
    (hm : mapSearch tn db.tables = some t) (hr : (t.update k vs).1 = .error e) :
    db.update saveOk tn k vs = (.error e, db.withTable tn (t.update k vs).2) := by
  simp [Database.update, hm, hr]

/-- `Database::update` whose table-level call succeeded. -/
theorem dbUpdate_tbl_ok {db : Database} {saveOk : Bool} {tn k : Str}
    {vs : List Value} {t : Table}
    (hm : mapSearch tn db.tables = some t) (hr : (t.update k vs).1 = .ok ()) :
    db.update saveOk tn k vs =
      ((db.withTable tn (t.update k vs).2).save saveOk,
        db.withTable tn (t.update k vs).2) := by
  simp [Database.update, hm, hr]

/-- `Database::delete` with no such table. -/
theorem dbDelete_missing {db : Database} {saveOk : Bool} {tn k : Str}
    (hm : mapSearch tn db.tables = none) :
    db.delete saveOk tn k = (.error .TableNotFound, db) := by
  simp [Database.delete, hm]

/-- `Database::delete` whose table-level call failed. -/
theorem dbDelete_tbl_err {db : Database} {saveOk : Bool} {tn k : Str}
    {t : Table} {e : DbError}
    (hm : mapSearch tn db.tables = some t) (hr : (t.delete k).1 = .error e) :
    db.delete saveOk tn k = (.error e, db.withTable tn (t.delete k).2) := by
  simp [Database.delete, hm, hr]

/-- `Database::delete` whose table-level call succeeded. -/
theorem dbDelete_tbl_ok {db : Database} {saveOk : Bool} {tn k : Str} {t : Table}
    (hm : mapSearch tn db.tables = some t) (hr : (t.delete k).1 = .ok ()) :
    db.delete saveOk tn k =
      ((db.withTable tn (t.delete k).2).save saveOk,
        db.withTable tn (t.delete k).2) := by
  simp [Database.delete, hm, hr]

/-- The three possible outcomes of `Database::insert`: full success under a
successful save, a pre-mutation failure leaving the state untouched, or a
post-mutation save failure with the mutation retained. -/
theorem dbInsert_spec (saveOk : Bool) (db : Database) (tn k : Str) (vs : List Value) :
    ((db.insert saveOk tn k vs).1 = .ok () →
      saveOk = true ∧
        ((db.insert saveOk tn k vs).2).get tn k = .ok (Row.new vs)) ∧
    (∀ e, (db.insert saveOk tn k vs).1 = .error e → e ≠ .IoError →
      (db.insert saveOk tn k vs).2 = db) ∧
    ((db.insert saveOk tn k vs).1 = .error .IoError →
      saveOk = false ∧
        ((db.insert saveOk tn k vs).2).get tn k = .ok (Row.new vs)) := by
  cases hm : mapSearch tn db.tables with
  | none =>
    rw [dbInsert_missing hm]
    refine ⟨?_, ?_, ?_⟩
    · intro h; simp at h
    · intro e he hne; rfl
    · intro h; simp at h
  | some t =>
    cases hr : (t.insert k vs).1 with
    | error e0 =>
      rw [dbInsert_tbl_err hm hr]
      refine ⟨?_, ?_, ?_⟩
      · intro h; simp at h
      · intro e he hne
        show db.withTable tn (t.insert k vs).2 = db
        rw [table_insert_err_state hr, withTable_self hm]
      · intro h
        have h2 : e0 = DbError.IoError := by simpa using h
        exact absurd h2 (table_insert_err_ne_io hr)
    | ok u =>
      cases u
      rw [dbInsert_tbl_ok hm hr]
      cases saveOk with
      | true =>
        refine ⟨?_, ?_, ?_⟩
        · intro _
          refine ⟨rfl, ?_⟩
          show (db.withTable tn (t.insert k vs).2).get tn k = .ok (Row.new vs)
          rw [withTable_get _ hm, table_insert_ok_get hr]
        · intro e he hne
          simp [Database.save] at he
        · intro h
          simp [Database.save] at h
      | false =>
        refine ⟨?_, ?_, ?_⟩
        · intro h
          simp [Database.save] at h
        · intro e he hne
          have h2 : DbError.IoError = e := by simpa [Database.save] using he
          exact absurd h2.symm hne
        · intro _
          refine ⟨rfl, ?_⟩
          show (db.withTable tn (t.insert k vs).2).get tn k = .ok (Row.new vs)
          rw [withTable_get _ hm, table_insert_ok_get hr]

/-- The three possible outcomes of `Database::update`, as for insert. -/
theorem dbUpdate_spec (saveOk : Bool) (db : Database) (tn k : Str) (vs : List Value) :
    ((db.update saveOk tn k vs).1 = .ok () →
      saveOk = true ∧
        ((db.update saveOk tn k vs).2).get tn k = .ok (Row.new vs)) ∧
    (∀ e, (db.update saveOk tn k vs).1 = .error e → e ≠ .IoError →
      (db.update saveOk tn k vs).2 = db) ∧
    ((db.update saveOk tn k vs).1 = .error .IoError →
      saveOk = false ∧
        ((db.update saveOk tn k vs).2).get tn k = .ok (Row.new vs)) := by
  cases hm : mapSearch tn db.tables with
  | none =>
    rw [dbUpdate_missing hm]
    refine ⟨?_, ?_, ?_⟩
    · intro h; simp at h
    · intro e he hne; rfl
    · intro h; simp at h
  | some t =>
    cases hr : (t.update k vs).1 with
    | error e0 =>
      rw [dbUpdate_tbl_err hm hr]
      refine ⟨?_, ?_, ?_⟩
      · intro h; simp at h
      · intro e he hne
        show db.withTable tn (t.update k vs).2 = db
        rw [table_update_err_state hr, withTable_self hm]
      · intro h
        have h2 : e0 = DbError.IoError := by simpa using h
        exact absurd h2 (table_update_err_ne_io hr)
    | ok u =>
      cases u
      rw [dbUpdate_tbl_ok hm hr]
      cases saveOk with
      | true =>
        refine ⟨?_, ?_, ?_⟩
        · intro _
          refine ⟨rfl, ?_⟩
          show (db.withTable tn (t.update k vs).2).get tn k = .ok (Row.new vs)
          rw [withTable_get _ hm, table_update_ok_get hr]
        · intro e he hne
          simp [Database.save] at he
        · intro h
          simp [Database.save] at h
      | false =>
        refine ⟨?_, ?_, ?_⟩
        · intro h
          simp [Database.save] at h
        · intro e he hne
          have h2 : DbError.IoError = e := by simpa [Database.save] using he
          exact absurd h2.symm hne
        · intro _
          refine ⟨rfl, ?_⟩
          show (db.withTable tn (t.update k vs).2).get tn k = .ok (Row.new vs)
          rw [withTable_get _ hm, table_update_ok_get hr]

/-- The three possible outcomes of `Database::delete`, as for insert; the
sortedness hypothesis is the `BTreeMap` representation invariant of the
stored tables. -/
theorem dbDelete_spec (saveOk : Bool) (db : Database) (tn k : Str)
    (hs : ∀ p ∈ db.tables, sortedKeys p.2.data) :
    ((db.delete saveOk tn k).1 = .ok () →
      saveOk = true ∧
        ((db.delete saveOk tn k).2).get tn k = .error .KeyNotFound) ∧
    (∀ e, (db.delete saveOk tn k).1 = .error e → e ≠ .IoError →
      (db.delete saveOk tn k).2 = db) ∧
    ((db.delete saveOk tn k).1 = .error .IoError →
      saveOk = false ∧
        ((db.delete saveOk tn k).2).get tn k = .error .KeyNotFound) := by
  cases hm : mapSearch tn db.tables with
  | none =>
    rw [dbDelete_missing hm]
    refine ⟨?_, ?_, ?_⟩
    · intro h; simp at h
    · intro e he hne; rfl
    · intro h; simp at h
  | some t =>
    have hst : sortedKeys t.data := hs (tn, t) (mapSearch_mem hm)
    cases hr : (t.delete k).1 with
    | error e0 =>
      rw [dbDelete_tbl_err hm hr]
      refine ⟨?_, ?_, ?_⟩
      · intro h; simp at h
      · intro e he hne
        show db.withTable tn (t.delete k).2 = db
        rw [table_delete_err_state hr, withTable_self hm]
      · intro h
        have h2 : e0 = DbError.IoError := by simpa using h
        exact absurd h2 (table_delete_err_ne_io hr)
    | ok u =>
      cases u
      rw [dbDelete_tbl_ok hm hr]
      cases saveOk with
      | true =>
        refine ⟨?_, ?_, ?_⟩
        · intro _
          refine ⟨rfl, ?_⟩
          show (db.withTable tn (t.delete k).2).get tn k = .error .KeyNotFound
          rw [withTable_get _ hm, table_delete_ok_get hst hr]
        · intro e he hne
          simp [Database.save] at he
        · intro h
          simp [Database.save] at h
      | false =>
        refine ⟨?_, ?_, ?_⟩
        · intro h
          simp [Database.save] at h
        · intro e he hne
          have h2 : DbError.IoError = e := by simpa [Database.save] using he
          exact absurd h2.symm hne
        · intro _
          refine ⟨rfl, ?_⟩
          show (db.withTable tn (t.delete k).2).get tn k = .error .KeyNotFound
          rw [withTable_get _ hm, table_delete_ok_get hst hr]

/-!
`get_as_map` characterization.
-/

/-- Lookup after a `HashMap::insert`: the inserted key now maps to the new
value and nothing else moved. -/
theorem mapSearch_hmInsert (name k : Str) (v : Value) :
    ∀ m : List (Str × Value),
      mapSearch name (hmInsert k v m) =
        if name = k then some v else mapSearch name m
  | [] => by simp [hmInsert, mapSearch]
  | (k0, v0) :: rest => by
    simp only [hmInsert]
    by_cases h0 : k0 = k
    · subst h0
      rw [if_pos rfl]
      by_cases hn : name = k0
      · simp [mapSearch, hn]
      · simp [mapSearch, hn]
    · rw [if_neg h0]
      by_cases hn : name = k0
      · subst hn
        simp [mapSearch, h0]
      · simp only [mapSearch, if_neg hn]
        exact mapSearch_hmInsert name k v rest

/-- What the `get_as_map` loop binds a name to, over any accumulator: the
last in-range column with that name wins, otherwise the accumulator
answers. -/
theorem getAsMapLoop_lookup (vals : List Value) (name : Str) :
    ∀ (cols : List Column) (i : Nat) (m : List (Str × Value)),
      mapSearch name (getAsMapLoop vals i cols m) =
        match lastValFrom vals name i cols with
        | some v => some v
        | none => mapSearch name m
  | [], i, m => by simp [getAsMapLoop, lastValFrom]
  | column :: rest, i, m => by
    cases hlv : lastValFrom vals name (i + 1) rest with
    | some v2 =>
      cases hvi : vals[i]? with
      | some v =>
        simp only [getAsMapLoop, hvi, lastValFrom, hlv,
          getAsMapLoop_lookup vals name rest (i + 1) (hmInsert column.name v m)]
      | none =>
        simp only [getAsMapLoop, hvi, lastValFrom, hlv,
          getAsMapLoop_lookup vals name rest (i + 1) m]
    | none =>
      cases hvi : vals[i]? with
      | some v =>
        simp only [getAsMapLoop, hvi, lastValFrom, hlv,
          getAsMapLoop_lookup vals name rest (i + 1) (hmInsert column.name v m),
          mapSearch_hmInsert]
        by_cases hn : column.name = name
        · subst hn
          simp [hvi]
        · have hn2 : ¬ name = column.name := fun he => hn he.symm
          simp [hn, hn2]
      | none =>
        simp only [getAsMapLoop, hvi, lastValFrom, hlv,
          getAsMapLoop_lookup vals name rest (i + 1) m]
        by_cases hn : column.name = name
        · simp [hn, hvi]
        · simp [hn]

/-!
The claims.
-/

/-- Claim C1, amended.  As stated the claim fails (see
`claim1_counterexample`): a save failure after the table-level mutation
leaves the in-memory mutation applied.  Amended: every mutating call on
`Database` (insert, update, delete) either fully succeeds - which requires
the save to succeed - with the row mutation visible afterwards, or fails
before any mutation with no visible change to the in-memory state, or - when
the post-mutation save fails - returns the I/O error while the in-memory
mutation remains applied (and any error other than the save's I/O error
implies an unchanged state).  The sortedness hypothesis is the `BTreeMap`
representation invariant of the stored tables. -/
theorem claim1_mutation_atomicity (saveOk : Bool) (db : Database) (tn k : Str)
    (vs : List Value) (hs : ∀ p ∈ db.tables, sortedKeys p.2.data) :
    (((db.insert saveOk tn k vs).1 = .ok () →
        saveOk = true ∧
          ((db.insert saveOk tn k vs).2).get tn k = .ok (Row.new vs)) ∧
      (∀ e, (db.insert saveOk tn k vs).1 = .error e → e ≠ .IoError →
        (db.insert saveOk tn k vs).2 = db) ∧
      ((db.insert saveOk tn k vs).1 = .error .IoError →
        saveOk = false ∧
          ((db.insert saveOk tn k vs).2).get tn k = .ok (Row.new vs))) ∧
    (((db.update saveOk tn k vs).1 = .ok () →
        saveOk = true ∧
          ((db.update saveOk tn k vs).2).get tn k = .ok (Row.new vs)) ∧
      (∀ e, (db.update saveOk tn k vs).1 = .error e → e ≠ .IoError →
        (db.update saveOk tn k vs).2 = db) ∧
      ((db.update saveOk tn k vs).1 = .error .IoError →
        saveOk = false ∧
          ((db.update saveOk tn k vs).2).get tn k = .ok (Row.new vs))) ∧
    (((db.delete saveOk tn k).1 = .ok () →
        saveOk = true ∧
          ((db.delete saveOk tn k).2).get tn k = .error .KeyNotFound) ∧
      (∀ e, (db.delete saveOk tn k).1 = .error e → e ≠ .IoError →
        (db.delete saveOk tn k).2 = db) ∧
      ((db.delete saveOk tn k).1 = .error .IoError →
        saveOk = false ∧
          ((db.delete saveOk tn k).2).get tn k = .error .KeyNotFound)) :=
  ⟨dbInsert_spec saveOk db tn k vs, dbUpdate_spec saveOk db tn k vs,
    dbDelete_spec saveOk db tn k hs⟩

/-- Claim C1, counterexample to the claim as stated: on `dbSample`, an
insert whose table-level mutation succeeds but whose save fails returns an
error, yet the in-memory Database state visibly changed - the mutation is
not rolled back. -/
theorem claim1_counterexample :
    (dbSample.insert false [117] [110] [Value.Integer 1, Value.Text [66]]).1 =
        .error .IoError ∧
      (dbSample.insert false [117] [110] [Value.Integer 1, Value.Text [66]]).2 ≠
        dbSample := by
  decide

/-- Claim C1, witness: a concrete successful insert (save succeeding)
through the amended theorem. -/
theorem claim1_witness :
    ((dbSample.insert true [117] [110] [Value.Integer 1, Value.Text [66]]).2).get
        [117] [110] = .ok (Row.new [Value.Integer 1, Value.Text [66]]) :=
  ((claim1_mutation_atomicity true dbSample [117] [110]
      [Value.Integer 1, Value.Text [66]]
      (by
        intro p hp
        simp only [dbSample, List.mem_singleton] at hp
        subst hp
        simp [tableSample, sortedKeys])).1.1 (by decide)).2

/-- Claim C2: the bytes `save` serializes (`encDatabase`), deserialized the
way `open` does (`decDatabase`), rebuild the identical Database - same table
names, same column schemas, same rows, per-table key order preserved.  The
`wfDatabase` hypothesis is the representation invariant every Rust value of
the type satisfies by construction (u8/i64/usize ranges, ascending
`BTreeMap` entries). -/
theorem claim2_roundtrip (db : Database) (h : wfDatabase db = true) :
    decDatabase (encDatabase db) = some (db, []) :=
  decDatabase_encDatabase h

/-- Claim C2, witness: the round trip evaluated on a concrete database. -/
theorem claim2_witness :
    wfDatabase dbSample = true ∧
      decDatabase (encDatabase dbSample) = some (dbSample, []) :=
  ⟨by decide, claim2_roundtrip dbSample (by decide)⟩

/-- Claim C3: the checks of `Table::insert` and `Table::update` run in the
fixed order existence, arity, per-column types (the loop `validateFrom 0`
walks columns in ascending index order), and the first failing check
determines the error: a failed existence check reports regardless of arity
and types, a failed arity check reports regardless of types. -/
theorem claim3_validation_order (t : Table) (k : Str) (vs : List Value) :
    ((mapSearch k t.data).isSome = true →
      (t.insert k vs).1 = .error .KeyExists) ∧
    ((mapSearch k t.data).isSome = false → vs.length ≠ t.columns.length →
      (t.insert k vs).1 = .error (.Other (arityMsg t.columns.length vs.length))) ∧
    ((mapSearch k t.data).isSome = false → vs.length = t.columns.length →
      t.validateFrom 0 vs = .error .TypeConversionError →
      (t.insert k vs).1 = .error .TypeConversionError) ∧
    ((mapSearch k t.data).isSome = false →
      (t.update k vs).1 = .error .KeyNotFound) ∧
    ((mapSearch k t.data).isSome = true → vs.length ≠ t.columns.length →
      (t.update k vs).1 = .error (.Other (arityMsg t.columns.length vs.length))) ∧
    ((mapSearch k t.data).isSome = true → vs.length = t.columns.length →
      t.validateFrom 0 vs = .error .TypeConversionError →
      (t.update k vs).1 = .error .TypeConversionError) := by
  refine ⟨?_, ?_, ?_, ?_, ?_, ?_⟩
  · intro h1
    rw [insert_of_exists h1]
  · intro h1 h2
    rw [insert_of_arity h1 h2]
  · intro h1 h2 h3
    rw [insert_of_typefail h1 h2 h3]
  · intro h1
    cases hms : mapSearch k t.data with
    | none => rw [update_of_missing hms]
    | some r => rw [hms] at h1; cases h1
  · intro h1 h2
    obtain ⟨r, hms⟩ := Option.isSome_iff_exists.mp h1
    rw [update_of_arity hms h2]
  · intro h1 h2 h3
    obtain ⟨r, hms⟩ := Option.isSome_iff_exists.mp h1
    rw [update_of_typefail hms h2 h3]

/-- Claim C3, witness: a present key reports `KeyExists` even though the
value list also has the wrong arity. -/
theorem claim3_witness :
    (tableSample.insert [107] [Value.Null]).1 = .error .KeyExists :=
  (claim3_validation_order tableSample [107] [Value.Null]).1 (by decide)

/-- Claim C4: with the key-existence precondition met and
`values.length != columns.length`, `Table::insert` and `Table::update`
reject with the arity-mismatch error - concretely `DbError::Other` carrying
the `"Expected .. values, got .."` message - and conversely that error is
produced only by the arity check, so it does distinguish
value-count/column-count mismatches from every other failure. -/
theorem claim4_arity_rejection (t : Table) (k : Str) (vs : List Value) :
    ((mapSearch k t.data).isSome = false → vs.length ≠ t.columns.length →
      (t.insert k vs).1 = .error (.Other (arityMsg t.columns.length vs.length))) ∧
    ((mapSearch k t.data).isSome = true → vs.length ≠ t.columns.length →
      (t.update k vs).1 = .error (.Other (arityMsg t.columns.length vs.length))) ∧
    (∀ msg, (t.insert k vs).1 = .error (.Other msg) →
      vs.length ≠ t.columns.length ∧ msg = arityMsg t.columns.length vs.length) ∧
    (∀ msg, (t.update k vs).1 = .error (.Other msg) →
      vs.length ≠ t.columns.length ∧ msg = arityMsg t.columns.length vs.length) := by
  refine ⟨?_, ?_, ?_, ?_⟩
  · intro h1 h2
    rw [insert_of_arity h1 h2]
  · intro h1 h2
    obtain ⟨r, hms⟩ := Option.isSome_iff_exists.mp h1
    rw [update_of_arity hms h2]
  · intro msg hmsg
    by_cases h1 : (mapSearch k t.data).isSome = true
    · rw [insert_of_exists h1] at hmsg; simp at hmsg
    · have h1' : (mapSearch k t.data).isSome = false := by simpa using h1
      by_cases h2 : vs.length = t.columns.length
      · rcases validateFrom_cases t vs 0 with h3 | h3
        · rw [insert_of_ok h1' h2 h3] at hmsg; simp at hmsg
        · rw [insert_of_typefail h1' h2 h3] at hmsg; simp at hmsg
      · rw [insert_of_arity h1' h2] at hmsg
        have hm2 : DbError.Other (arityMsg t.columns.length vs.length) =
            DbError.Other msg := by simpa using hmsg
        injection hm2 with hm3
        exact ⟨h2, hm3.symm⟩
  · intro msg hmsg
    cases hms : mapSearch k t.data with
    | none => rw [update_of_missing hms] at hmsg; simp at hmsg
    | some r =>
      by_cases h2 : vs.length = t.columns.length
      · rcases validateFrom_cases t vs 0 with h3 | h3
        · rw [update_of_ok hms h2 h3] at hmsg; simp at hmsg
        · rw [update_of_typefail hms h2 h3] at hmsg; simp at hmsg
      · rw [update_of_arity hms h2] at hmsg
        have hm2 : DbError.Other (arityMsg t.columns.length vs.length) =
            DbError.Other msg := by simpa using hmsg
        injection hm2 with hm3
        exact ⟨h2, hm3.symm⟩

/-- Claim C4, witness: one value against a two-column schema. -/
theorem claim4_witness :
    (tableSample.insert [110] [Value.Integer 3]).1 =
      .error (.Other (arityMsg 2 1)) :=
  (claim4_arity_rejection tableSample [110] [Value.Integer 3]).1
    (by decide) (by decide)

/-- Claim C5: with the earlier checks passing, `Table::insert` and
`Table::update` reject with the type-mismatch error
(`DbError::TypeConversionError`) exactly when some position pairs a column
with a value failing `typeMatches`; and `typeMatches` is variant
correspondence with `Null` exempted, so `Null` is accepted at any position
for any declared type. -/
theorem claim5_type_rejection (t : Table) (k : Str) (vs : List Value) :
    ((mapSearch k t.data).isSome = false → vs.length = t.columns.length →
      ((t.insert k vs).1 = .error .TypeConversionError ↔
        ∃ pr ∈ t.columns.zip vs, typeMatches pr.1.column_type pr.2 = false)) ∧
    ((mapSearch k t.data).isSome = true → vs.length = t.columns.length →
      ((t.update k vs).1 = .error .TypeConversionError ↔
        ∃ pr ∈ t.columns.zip vs, typeMatches pr.1.column_type pr.2 = false)) ∧
    (∀ ct v, typeMatches ct v = (variantMatches ct v || v == Value.Null)) ∧
    (∀ ct, typeMatches ct Value.Null = true) := by
  have hiff : ∀ u : Table, u = t →
      (t.validateFrom 0 vs = .error .TypeConversionError ↔
        ∃ pr ∈ t.columns.zip vs, typeMatches pr.1.column_type pr.2 = false) := by
    intro u _
    constructor
    · intro h3
      rcases validateFrom_cases t vs 0 with h4 | h4
      · rw [h4] at h3; cases h3
      · by_contra hc
        push_neg at hc
        have h5 : t.validateFrom 0 vs = .ok () := by
          rw [validateFrom_ok_iff]
          intro pr hpr
          have h6 := hc pr (by simpa using hpr)
          simpa using h6
        rw [h5] at h3; cases h3
    · rintro ⟨pr, hpr, hfalse⟩
      rcases validateFrom_cases t vs 0 with h4 | h4
      · have h5 := (validateFrom_ok_iff t vs 0).mp h4 pr (by simpa using hpr)
        rw [hfalse] at h5; cases h5
      · exact h4
  refine ⟨?_, ?_, ?_, ?_⟩
  · intro h1 h2
    constructor
    · intro herr
      rcases validateFrom_cases t vs 0 with h4 | h4
      · rw [insert_of_ok h1 h2 h4] at herr; simp at herr
      · exact (hiff t rfl).mp h4
    · intro hex
      have h3 := (hiff t rfl).mpr hex
      rw [insert_of_typefail h1 h2 h3]
  · intro h1 h2
    obtain ⟨r, hms⟩ := Option.isSome_iff_exists.mp h1
    constructor
    · intro herr
      rcases validateFrom_cases t vs 0 with h4 | h4
      · rw [update_of_ok hms h2 h4] at herr; simp at herr
      · exact (hiff t rfl).mp h4
    · intro hex
      have h3 := (hiff t rfl).mpr hex
      rw [update_of_typefail hms h2 h3]
  · intro ct v
    cases ct <;> cases v <;> rfl
  · intro ct
    cases ct <;> rfl

/-- Claim C5, witness: a text value in an integer column is rejected with
the type-mismatch error. -/
theorem claim5_witness :
    (tableSample.insert [110] [Value.Text [65], Value.Text [66]]).1 =
      .error .TypeConversionError :=
  ((claim5_type_rejection tableSample [110] [Value.Text [65], Value.Text [66]]).1
      (by decide) (by decide)).mpr
    ⟨(⟨[105, 100], ColumnType.Integer⟩, Value.Text [65]), by decide, by decide⟩

/-- Claim C6: inserting an already-present key reports `KeyExists` and the
whole table - the row stored at that key included - is unchanged. -/
theorem claim6_duplicate_insert (t : Table) (k : Str) (vs : List Value) (r : Row)
    (h : mapSearch k t.data = some r) :
    t.insert k vs = (.error .KeyExists, t) :=
  insert_of_exists (by rw [h]; rfl)

/-- Claim C6, witness: re-inserting the sample table's stored key. -/
theorem claim6_witness :
    tableSample.insert [107] [Value.Null, Value.Null] =
      (.error .KeyExists, tableSample) :=
  claim6_duplicate_insert tableSample [107] [Value.Null, Value.Null] rowSample
    (by decide)

/-- Claim C7: inserting an absent key with schema-conforming values (right
arity, every value admissible) succeeds, and `get` on that key returns
exactly the row built from those values. -/
theorem claim7_insert_get (t : Table) (k : Str) (vs : List Value)
    (h1 : mapSearch k t.data = none)
    (h2 : vs.length = t.columns.length)
    (h3 : (t.columns.zip vs).all
      (fun pr => typeMatches pr.1.column_type pr.2) = true) :
    (t.insert k vs).1 = .ok () ∧
      ((t.insert k vs).2).get k = .ok (Row.new vs) := by
  have h1' : (mapSearch k t.data).isSome = false := by rw [h1]; rfl
  have h3' : t.validateFrom 0 vs = .ok () := by
    rw [validateFrom_ok_iff]
    intro pr hpr
    exact List.all_eq_true.mp h3 pr (by simpa using hpr)
  have hok : (t.insert k vs).1 = .ok () := by
    rw [insert_of_ok h1' h2 h3']
  exact ⟨hok, table_insert_ok_get hok⟩

/-- Claim C7, witness: a concrete conforming insert reads back. -/
theorem claim7_witness :
    (tableSample.insert [110] [Value.Integer 9, Value.Null]).1 = .ok () ∧
      ((tableSample.insert [110] [Value.Integer 9, Value.Null]).2).get [110] =
        .ok (Row.new [Value.Integer 9, Value.Null]) :=
  claim7_insert_get tableSample [110] [Value.Integer 9, Value.Null]
    (by decide) (by decide) (by decide)

/-- Claim C8: from an empty table, after any sequence of mutating calls in
any order, `get_all` and `find` return entries in strictly ascending
byte-wise key order, and `find` returns exactly the entries whose row
satisfies the predicate. -/
theorem claim8_ordered_snapshots (ops : List TableOp) (name : Str)
    (cols : List Column) (pk : Option Str) (p : Row → Bool) :
    sortedKeys ((Table.new name cols pk).applyOps ops).get_all ∧
    sortedKeys (((Table.new name cols pk).applyOps ops).find p) ∧
    ((Table.new name cols pk).applyOps ops).find p =
      (((Table.new name cols pk).applyOps ops).get_all).filter
        (fun pr => p pr.2) := by
  have hinv := inv_applyOps ops (inv_new name cols pk)
  refine ⟨hinv.1, ?_, ?_⟩
  · rw [Table.find, findAux_eq_filter]
    unfold sortedKeys
    exact List.Pairwise.sublist
      (List.Sublist.map Prod.fst (List.filter_sublist _)) hinv.1
  · rw [Table.find, findAux_eq_filter, Table.get_all]

/-- Claim C9: from an empty table, after any sequence of mutating calls,
every stored row has exactly as many values as the schema has columns, and
every column/value pair is admissible (variant match or `Null`); the
read-only operations take `&self` and are pure functions here, so they
cannot disturb this. -/
theorem claim9_schema_invariant (ops : List TableOp) (name : Str)
    (cols : List Column) (pk : Option Str) :
    ∀ pr ∈ ((Table.new name cols pk).applyOps ops).data,
      pr.2.values.length = cols.length ∧
      ∀ cv ∈ cols.zip pr.2.values, typeMatches cv.1.column_type cv.2 = true := by
  intro pr hpr
  have hinv := inv_applyOps ops (inv_new name cols pk)
  have hok := hinv.2 pr hpr
  rw [columns_applyOps] at hok
  simp only [rowOk, Table.new, Bool.and_eq_true, List.all_eq_true] at hok
  exact ⟨by simpa using hok.1, hok.2⟩

/-- Claim C9, witness: the invariant read off a concrete one-insert
history. -/
theorem claim9_witness :
    (Row.mk [Value.Integer 7, Value.Text [65]]).values.length = colsSample.length ∧
      ∀ cv ∈ colsSample.zip (Row.mk [Value.Integer 7, Value.Text [65]]).values,
        typeMatches cv.1.column_type cv.2 = true :=
  claim9_schema_invariant [TableOp.insertOp [107] [Value.Integer 7, Value.Text [65]]]
    [117] colsSample none ([107], Row.mk [Value.Integer 7, Value.Text [65]])
    (by decide)

/-- Claim C10: `get_as_map` on a stored key always succeeds, row/schema
length mismatch notwithstanding, and the produced map binds each name to
`lastValFrom`: the value of the last (highest-index) column with that name
whose index is inside the row - so columns beyond the row's length are
silently omitted, and among duplicate names the later in-range column
overwrites the earlier. -/
theorem claim10_get_as_map (t : Table) (k : Str) (r : Row)
    (h : mapSearch k t.data = some r) :
    t.get_as_map k = .ok (getAsMapLoop r.values 0 t.columns []) ∧
    ∀ name, mapSearch name (getAsMapLoop r.values 0 t.columns []) =
      lastValFrom r.values name 0 t.columns := by
  constructor
  · simp [Table.get_as_map, Table.get, h]
  · intro name
    rw [getAsMapLoop_lookup]
    cases hlv : lastValFrom r.values name 0 t.columns <;> simp [mapSearch]

/-- Claim C10, witness: a three-column table with a repeated name and a
two-value stored row - the lookups come out as the characterization says. -/
theorem claim10_witness :
    tableRagged.get_as_map [107] =
        .ok (getAsMapLoop [Value.Integer 1, Value.Text [120]] 0
          tableRagged.columns []) ∧
      lastValFrom [Value.Integer 1, Value.Text [120]] [97] 0 tableRagged.columns =
        some (Value.Integer 1) :=
  ⟨(claim10_get_as_map tableRagged [107] (Row.mk [Value.Integer 1, Value.Text [120]])
      (by decide)).1, by decide⟩
